import Mathlib

/-!
# AString (foundation/AString.cpp): a shallow embedding

The buffer is modelled as a record of the three fields of the C++ class
(`mData`, `mSize`, `mAllocSize`).  A pointer is either `NULL`, the shared
read-only constant `kEmptyString`, or a heap block whose bytes are listed
explicitly.  Bytes are natural numbers (a `char` holds a value below 256).
`size_t` arithmetic is arithmetic modulo `2 ^ w`, where `w` is the width of
`size_t` on the target (32 or 64).  Every operation that would read or write
outside a block, or write through a pointer that is not a heap block, yields
`none` (undefined behaviour in the C++ program).
-/

namespace android

/-! ## Memory model and the C library functions used by the source -/

/-- A `char *` value as the class uses it. -/
inductive Ptr where
  | null
  | kEmptyString
  | heap (buf : List Nat)
  deriving DecidableEq, Repr

/-- The bytes readable through a pointer (`kEmptyString` is the literal `""`). -/
def Ptr.mem : Ptr → Option (List Nat)
  | Ptr.null => none
  | Ptr.kEmptyString => some [0]
  | Ptr.heap buf => some buf

/-- The block writable through a pointer: only heap blocks can be written. -/
def Ptr.heapBuf : Ptr → Option (List Nat)
  | Ptr.heap buf => some buf
  | _ => none

/-- The fields of the class. -/
structure AString where
  mData : Ptr
  mSize : Nat
  mAllocSize : Nat
  deriving DecidableEq, Repr

/-- `size_t` addition. -/
def addSz (w a b : Nat) : Nat := (a + b) % 2 ^ w

/-- `size_t` subtraction. -/
def subSz (w a b : Nat) : Nat := (a % 2 ^ w + 2 ^ w - b % 2 ^ w) % 2 ^ w

/-- `size_t` multiplication. -/
def mulSz (w a b : Nat) : Nat := (a * b) % 2 ^ w

/-- The `int` constant `-32` converted to `size_t`. -/
def negThirtyTwo (w : Nat) : Nat := 2 ^ w - 32

/-- `realloc(p, n)`: the old bytes are kept up to `n`, the new bytes are
indeterminate (`junk i` is the byte found at offset `i`).  `realloc(NULL, n)`
is `malloc(n)`.  Allocation is assumed to succeed. -/
def realloc (junk : Nat → Nat) (p : Ptr) (n : Nat) : Option Ptr :=
  match p with
  | Ptr.null => some (Ptr.heap ((List.range n).map junk))
  | Ptr.kEmptyString => none
  | Ptr.heap buf =>
    some (Ptr.heap (buf.take n ++ (List.range (n - buf.length)).map (fun i => junk (buf.length + i))))

/-- `memcpy(&buf[dst], src, n)` where `src` is a separate block. -/
def memcpy (buf : List Nat) (dst : Nat) (src : List Nat) (n : Nat) : Option (List Nat) :=
  if dst + n ≤ buf.length ∧ n ≤ src.length then
    some (buf.take dst ++ src.take n ++ buf.drop (dst + n))
  else none

/-- `memmove(&buf[dst], &buf[src], n)` inside one block. -/
def memmove (buf : List Nat) (dst src n : Nat) : Option (List Nat) :=
  if dst + n ≤ buf.length ∧ src + n ≤ buf.length then
    some (buf.take dst ++ (buf.drop src).take n ++ buf.drop (dst + n))
  else none

/-- `buf[i] = v`. -/
def store (buf : List Nat) (i v : Nat) : Option (List Nat) :=
  if i < buf.length then some (buf.set i v) else none

/-- `memcmp(p, q, n)`: the difference of the first pair of bytes that differ
among the first `n`, zero when there is none. -/
def memcmp : List Nat → List Nat → Nat → Option Int
  | _, _, 0 => some 0
  | x :: xs, y :: ys, n + 1 => if x = y then memcmp xs ys n else some ((x : Int) - (y : Int))
  | _, _, _ + 1 => none

/-- The value of a `char` holding byte `b` when it is converted to `int`;
`signedChar` tells whether plain `char` is signed on the target. -/
def charToInt (signedChar : Bool) (b : Nat) : Int :=
  if signedChar ∧ 128 ≤ b then (b : Int) - 256 else (b : Int)

/-- Conversion of an `int` to the byte stored in a `char`. -/
def intToChar (c : Int) : Nat := (c % 256).toNat

/-- Conversion of an `int` to `size_t`. -/
def intToSz (w : Nat) (c : Int) : Nat := (c % (2 ^ w : Nat)).toNat

/-- `isspace` in the C locale. -/
def isspace (c : Int) : Bool :=
  c == 32 || (9 ≤ c && c ≤ 13)

/-- `::tolower` in the C locale. -/
def tolowerC (c : Int) : Int :=
  if 65 ≤ c ∧ c ≤ 90 then c + 32 else c

/-! ## The class -/

/-- `AString::AString()`. -/
def AString.mk0 : AString := { mData := Ptr.kEmptyString, mSize := 0, mAllocSize := 1 }

/-- `AString::size`. -/
def AString.size (a : AString) : Nat := a.mSize

/-- `AString::empty`. -/
def AString.empty (a : AString) : Bool := a.mSize == 0

/-- `AString::c_str`. -/
def AString.c_str (a : AString) : Ptr := a.mData

/-- `AString::clear`. -/
def AString.clear (a : AString) : AString :=
  let a1 := if a.mData ≠ Ptr.kEmptyString then { a with mData := Ptr.kEmptyString } else a
  { a1 with mSize := 0, mAllocSize := 1 }

/-- `AString::makeMutable`: `strdup(kEmptyString)` is a one-byte heap block. -/
def AString.makeMutable (a : AString) : AString :=
  if a.mData = Ptr.kEmptyString then { a with mData := Ptr.heap [0] } else a

/-- The growth step shared by `append` and `insert`. -/
def AString.grow (w : Nat) (junk : Nat → Nat) (a : AString) (size : Nat) : Option AString :=
  if addSz w (addSz w a.mSize size) 1 > a.mAllocSize then do
    let n := (addSz w (addSz w a.mAllocSize size) 31) &&& negThirtyTwo w
    let p ← realloc junk a.mData n
    pure { a with mAllocSize := n, mData := p }
  else pure a

/-- `AString::append(const char *s, size_t size)`; `s` lists the bytes
readable at the source pointer. -/
def AString.append (w : Nat) (junk : Nat → Nat) (a : AString) (s : List Nat) (size : Nat) :
    Option AString := do
  let a1 := a.makeMutable
  let a2 ← a1.grow w junk size
  let buf ← a2.mData.heapBuf
  let buf1 ← memcpy buf a2.mSize s size
  let mSize := addSz w a2.mSize size
  let buf2 ← store buf1 mSize 0
  pure { mData := Ptr.heap buf2, mSize := mSize, mAllocSize := a2.mAllocSize }

/-- `AString::setTo(const char *s, size_t size)`. -/
def AString.setTo (w : Nat) (junk : Nat → Nat) (a : AString) (s : List Nat) (size : Nat) :
    Option AString :=
  a.clear.append w junk s size

/-- `AString::AString(const char *s, size_t size)`; `none` is the null pointer. -/
def AString.mkOfBytes (w : Nat) (junk : Nat → Nat) (s : Option (List Nat)) (size : Nat) :
    Option AString :=
  let a : AString := { mData := Ptr.null, mSize := 0, mAllocSize := 1 }
  match s with
  | none => some a.clear
  | some bytes => a.setTo w junk bytes size

/-- Where the `from` pointer of `insert` points when the call is made: into a
block other than the storage of the buffer (`bytes` are the bytes readable
there), or into the storage of the buffer itself, at `mData + off`. -/
inductive Source where
  | outside (bytes : List Nat)
  | inBuffer (off : Nat)
  deriving DecidableEq, Repr

/-- `memcpy(&buf[dst], &buf[src], n)` with both ranges in one block; ranges that
overlap are undefined. -/
def memcpyWithin (buf : List Nat) (dst src n : Nat) : Option (List Nat) :=
  if dst + n ≤ buf.length ∧ src + n ≤ buf.length ∧ (n = 0 ∨ dst + n ≤ src ∨ src + n ≤ dst) then
    some (buf.take dst ++ (buf.drop src).take n ++ buf.drop (dst + n))
  else none

/-- The `memcpy(&mData[insertionPos], from, size)` of `insert`.  It runs after
the tail has been moved: `buf1` is the block at that moment and `a` the buffer
as it was when `insert` was called.  A source inside the storage is read as the
block is now; it is no longer valid when the storage has been reallocated.  A
source inside the shared empty constant still points at that constant, which is
the single terminator byte. -/
def insertCopy (w : Nat) (a : AString) (buf1 : List Nat) (frm : Source)
    (size insertionPos : Nat) : Option (List Nat) :=
  match frm with
  | Source.outside bytes => memcpy buf1 insertionPos bytes size
  | Source.inBuffer off =>
    match a.mData with
    | Ptr.null => none
    | Ptr.kEmptyString =>
      if off ≤ 1 then memcpy buf1 insertionPos ([0].drop off) size else none
    | Ptr.heap _ =>
      if addSz w (addSz w a.mSize size) 1 > a.mAllocSize then none
      else memcpyWithin buf1 insertionPos off size

/-- `AString::insert(const char *from, size_t size, size_t insertionPos)`. -/
def AString.insert (w : Nat) (junk : Nat → Nat) (a : AString) (frm : Source)
    (size insertionPos : Nat) : Option AString := do
  let a1 := a.makeMutable
  let a2 ← a1.grow w junk size
  let buf ← a2.mData.heapBuf
  let buf1 ← memmove buf (addSz w insertionPos size) insertionPos
    (addSz w (subSz w a2.mSize insertionPos) 1)
  let buf2 ← insertCopy w a buf1 frm size insertionPos
  pure { mData := Ptr.heap buf2, mSize := addSz w a2.mSize size, mAllocSize := a2.mAllocSize }

/-- `AString::erase(size_t start, size_t n)`. -/
def AString.erase (w : Nat) (a : AString) (start n : Nat) : Option AString := do
  let a1 := a.makeMutable
  let buf ← a1.mData.heapBuf
  let buf1 ← memmove buf start (addSz w start n) (subSz w (subSz w a1.mSize start) n)
  let mSize := subSz w a1.mSize n
  let buf2 ← store buf1 mSize 0
  pure { mData := Ptr.heap buf2, mSize := mSize, mAllocSize := a1.mAllocSize }

/-- The first loop of `trim`: `while (i < mSize && isspace(mData[i])) ++i;`.
The first argument bounds the number of evaluations of the loop condition. -/
def trimFwd (signedChar : Bool) (buf : List Nat) (mSize : Nat) : Nat → Nat → Option Nat
  | 0, _ => none
  | fuel + 1, i =>
    if i < mSize then
      match buf[i]? with
      | none => none
      | some c =>
        if isspace (charToInt signedChar c) then trimFwd signedChar buf mSize fuel (i + 1)
        else some i
    else some i

/-- The second loop of `trim`: `while (j > i && isspace(mData[j - 1])) --j;`. -/
def trimBwd (signedChar : Bool) (buf : List Nat) (i : Nat) : Nat → Nat → Option Nat
  | 0, _ => none
  | fuel + 1, j =>
    if j > i then
      match buf[j - 1]? with
      | none => none
      | some c =>
        if isspace (charToInt signedChar c) then trimBwd signedChar buf i fuel (j - 1)
        else some j
    else some j

/-- `AString::trim`. -/
def AString.trim (w : Nat) (signedChar : Bool) (a : AString) : Option AString := do
  let a1 := a.makeMutable
  let buf ← a1.mData.heapBuf
  let i ← trimFwd signedChar buf a1.mSize (a1.mSize + 1) 0
  let j ← trimBwd signedChar buf i (a1.mSize + 1) a1.mSize
  let buf1 ← memmove buf 0 i (subSz w j i)
  let mSize := subSz w j i
  let buf2 ← store buf1 mSize 0
  pure { mData := Ptr.heap buf2, mSize := mSize, mAllocSize := a1.mAllocSize }

/-- The loop of `tolower`:
`for (size_t i = 0; i < mSize; ++i) mData[i] = ::tolower(mData[i]);`. -/
def tolowerLoop (signedChar : Bool) (mSize : Nat) : Nat → Nat → List Nat → Option (List Nat)
  | 0, _, _ => none
  | fuel + 1, i, buf =>
    if i < mSize then
      match buf[i]? with
      | none => none
      | some c =>
        tolowerLoop signedChar mSize fuel (i + 1)
          (buf.set i (intToChar (tolowerC (charToInt signedChar c))))
    else some buf

/-- `AString::tolower`. -/
def AString.tolower (signedChar : Bool) (a : AString) : Option AString := do
  let a1 := a.makeMutable
  let buf ← a1.mData.heapBuf
  let buf1 ← tolowerLoop signedChar a1.mSize (a1.mSize + 1) 0 buf
  pure { a1 with mData := Ptr.heap buf1 }

/-- The loop of `hash`:
`for (size_t i = 0; i < mSize; ++i) x = (x * 31) + mData[i];`. -/
def hashLoop (w : Nat) (signedChar : Bool) (buf : List Nat) (mSize : Nat) :
    Nat → Nat → Nat → Option Nat
  | 0, _, _ => none
  | fuel + 1, i, x =>
    if i < mSize then
      match buf[i]? with
      | none => none
      | some c =>
        hashLoop w signedChar buf mSize fuel (i + 1)
          (addSz w (mulSz w x 31) (intToSz w (charToInt signedChar c)))
    else some x

/-- `AString::hash`. -/
def AString.hash (w : Nat) (signedChar : Bool) (a : AString) : Option Nat := do
  let buf ← a.mData.mem
  hashLoop w signedChar buf a.mSize (a.mSize + 1) 0 0

/-- `AString::operator==`. -/
def AString.operatorEq (a other : AString) : Option Bool :=
  if a.mSize = other.mSize then do
    let p ← a.mData.mem
    let q ← other.mData.mem
    let r ← memcmp p q a.mSize
    pure (r == 0)
  else some false

/-- The logical content: the first `mSize` bytes readable through `mData`. -/
def AString.content (a : AString) : List Nat :=
  match a.mData.mem with
  | some buf => buf.take a.mSize
  | none => []

/-- The byte at index `i` of the block `mData` points to. -/
def AString.byteAt (a : AString) (i : Nat) : Option Nat :=
  match a.mData.mem with
  | some buf => buf[i]?
  | none => none

/-- The whitespace set as the specification lists it: space, tab, newline,
carriage return, form-feed, vertical-tab. -/
def isAsciiWhitespace (b : Nat) : Prop :=
  b = 32 ∨ b = 9 ∨ b = 10 ∨ b = 13 ∨ b = 12 ∨ b = 11

instance (b : Nat) : Decidable (isAsciiWhitespace b) := by
  unfold isAsciiWhitespace; infer_instance

/-- ASCII case folding as the specification words it: `A`..`Z` go to the
corresponding byte of `a`..`z`, every other byte is unchanged. -/
def asciiLower (b : Nat) : Nat :=
  if 65 ≤ b ∧ b ≤ 90 then b + 32 else b

/-- The rolling hash as the specification words it: the left fold
`h <- h * 31 + v` over the values in order, seeded at 0, in wrapping `size_t`
arithmetic. -/
def hashFold (w : Nat) (vals : List Nat) : Nat :=
  vals.foldl (fun h v => (h * 31 + v) % 2 ^ w) 0

/-- The value with which a byte enters a `size_t` sum: the byte itself, except
that where plain `char` is signed a byte of 128 or more enters sign-extended,
as `2 ^ w - 256 + b`. -/
def charAsSize (w : Nat) (signedChar : Bool) (b : Nat) : Nat :=
  if signedChar = true ∧ 128 ≤ b then 2 ^ w - 256 + b else b

/-- The class invariant: `mData` is never null; when it is the shared constant
the buffer is empty with recorded capacity 1; otherwise it is a heap block of
exactly `mAllocSize` bytes with room for the content and its terminator, and
the terminator is in place.  `mAllocSize` is a `size_t`. -/
def AString.WF (w : Nat) (a : AString) : Prop :=
  match a.mData with
  | Ptr.null => False
  | Ptr.kEmptyString => a.mSize = 0 ∧ a.mAllocSize = 1
  | Ptr.heap buf =>
    buf.length = a.mAllocSize ∧ a.mSize + 1 ≤ a.mAllocSize ∧ buf[a.mSize]? = some 0 ∧
      a.mAllocSize < 2 ^ w

instance (w : Nat) (a : AString) : Decidable (a.WF w) := by
  unfold AString.WF
  split <;> infer_instance

/-! ## C strings and the queries that scan for the terminator -/

/-- `strlen(p)`: the index of the first zero byte of the block at `p`; reading
past the end of the block is undefined. -/
def strlen : List Nat → Option Nat
  | [] => none
  | x :: xs => if x = 0 then some 0 else (strlen xs).map (fun n => n + 1)

/-- `strcmp(p, q)`: the difference of the first pair of bytes that differ, the
bytes taken as `unsigned char`; zero when both strings end together. -/
def strcmp : List Nat → List Nat → Option Int
  | x :: xs, y :: ys =>
    if x = y then (if x = 0 then some 0 else strcmp xs ys) else some ((x : Int) - (y : Int))
  | _, _ => none

/-- `strncmp(p, q, n)`: as `strcmp`, over at most `n` bytes. -/
def strncmp : List Nat → List Nat → Nat → Option Int
  | _, _, 0 => some 0
  | x :: xs, y :: ys, n + 1 =>
    if x = y then (if x = 0 then some 0 else strncmp xs ys n) else some ((x : Int) - (y : Int))
  | _, _, _ + 1 => none

/-- The search of `strstr` over the bytes `hay` of the haystack before its
terminator: the first offset, counted from `k`, at which the bytes `nd` of the
needle stand. -/
def strstrAux (nd : List Nat) : List Nat → Nat → Option Nat
  | [], k => if nd = [] then some k else none
  | x :: xs, k => if (x :: xs).take nd.length = nd then some k else strstrAux nd xs (k + 1)

/-- `strstr(haystack, needle)`: the offset of the first occurrence of the needle
in the haystack (the inner `none` is the null pointer); both are C strings. -/
def strstr (haystack needle : List Nat) : Option (Option Nat) := do
  let hl ← strlen haystack
  let nl ← strlen needle
  pure (strstrAux (needle.take nl) (haystack.take hl) 0)

/-- `AString::compare`. -/
def AString.compare (a other : AString) : Option Int := do
  let p ← a.mData.mem
  let q ← other.mData.mem
  strcmp p q

/-- `AString::operator<`. -/
def AString.operatorLt (a other : AString) : Option Bool := do
  let r ← a.compare other
  pure (decide (r < 0))

/-- `AString::operator>`. -/
def AString.operatorGt (a other : AString) : Option Bool := do
  let r ← a.compare other
  pure (decide (r > 0))

/-- `AString::find`; `substring` lists the bytes readable at the needle pointer.
The result is `-1` or the offset `match - mData`. -/
def AString.find (a : AString) (substring : List Nat) (start : Nat) : Option Int := do
  let buf ← a.mData.mem
  if start ≤ buf.length then
    match ← strstr (buf.drop start) substring with
    | none => pure (-1)
    | some k => pure ((start : Int) + (k : Int))
  else none

/-- `AString::startsWith`; `pfx` lists the bytes readable at the argument. -/
def AString.startsWith (a : AString) (pfx : List Nat) : Option Bool := do
  let n ← strlen pfx
  let p ← a.mData.mem
  let r ← strncmp p pfx n
  pure (r == 0)

/-- `AString::endsWith`; `sfx` lists the bytes readable at the argument. -/
def AString.endsWith (a : AString) (sfx : List Nat) : Option Bool := do
  let suffixLen ← strlen sfx
  if a.mSize < suffixLen then pure false
  else do
    let p ← a.mData.mem
    let r ← strcmp (p.drop (a.mSize - suffixLen)) sfx
    pure (r == 0)

/-- Lexicographic order on byte strings as the specification words it: bytes
compared as unsigned values, a proper initial segment ordered first. -/
def lexLt : List Nat → List Nat → Bool
  | [], [] => false
  | [], _ :: _ => true
  | _ :: _, [] => false
  | x :: xs, y :: ys => decide (x < y) || (decide (x = y) && lexLt xs ys)

/-- The needle `nd` stands in the content `c` at offset `k`. -/
def occursAt (c nd : List Nat) (k : Nat) : Prop :=
  k + nd.length ≤ c.length ∧ (c.drop k).take nd.length = nd

instance (c nd : List Nat) (k : Nat) : Decidable (occursAt c nd k) := by
  unfold occursAt; infer_instance

/-- The states a program reaches without undefined behaviour: it starts from a
constructor and then calls `append`, `insert`, `erase`, `trim`, `tolower`,
`setTo` and `clear`, with `pos ≤ size` for `insert` and `start + n ≤ size` for
`erase`.  The constructors from a C string, from a `String8` and from another
buffer (or a range of it) all run `setTo` with a pointer and a length on the
fresh fields, as `mkOfBytes` does with the bytes and the length they pass. -/
inductive Reachable (w : Nat) : AString → Prop where
  | default : Reachable w AString.mk0
  | ofBytes (junk : Nat → Nat) (s : Option (List Nat)) (size : Nat) (r : AString) :
      AString.mkOfBytes w junk s size = some r → Reachable w r
  | append (junk : Nat → Nat) (a : AString) (s : List Nat) (size : Nat) (r : AString) :
      Reachable w a → a.append w junk s size = some r → Reachable w r
  | insert (junk : Nat → Nat) (a : AString) (frm : Source) (size pos : Nat) (r : AString) :
      Reachable w a → pos ≤ a.mSize → a.insert w junk frm size pos = some r → Reachable w r
  | erase (a : AString) (start n : Nat) (r : AString) :
      Reachable w a → start + n ≤ a.mSize → a.erase w start n = some r → Reachable w r
  | trim (signedChar : Bool) (a r : AString) :
      Reachable w a → a.trim w signedChar = some r → Reachable w r
  | tolower (signedChar : Bool) (a r : AString) :
      Reachable w a → a.tolower signedChar = some r → Reachable w r
  | setTo (junk : Nat → Nat) (a : AString) (s : List Nat) (size : Nat) (r : AString) :
      Reachable w a → a.setTo w junk s size = some r → Reachable w r
  | clear (a : AString) : Reachable w a → Reachable w a.clear

/-! ## Formatting appends -/

/-- The decimal digits of `n`, most significant first, as ASCII bytes; the
first argument bounds the number of digits produced. -/
def decDigits : Nat → Nat → List Nat
  | 0, _ => []
  | fuel + 1, n => if n < 10 then [48 + n] else decDigits fuel (n / 10) ++ [48 + n % 10]

/-- The text `printf` produces for `%u`, `%lu` and `%llu`. -/
def fmtUnsigned (n : Nat) : List Nat := decDigits (n + 1) n

/-- The text `printf` produces for `%d`, `%ld` and `%lld`. -/
def fmtSigned (x : Int) : List Nat :=
  if x < 0 then 45 :: fmtUnsigned x.natAbs else fmtUnsigned x.natAbs

/-- The text `printf` produces for `%f` when the value of the argument is the
non-negative integer `k`: the digits of `k`, a point and six zeros. -/
def fmtFixedOfNat (k : Nat) : List Nat := fmtUnsigned k ++ [46, 48, 48, 48, 48, 48, 48]

/-- `snprintf(s, size, ...)` into an uninitialised `char s[size]` when the
formatted text is `text`: at most `size - 1` bytes of the text, the terminator,
and then whatever the stack held (`stack i` at offset `i`). -/
def snprintf (size : Nat) (text : List Nat) (stack : Nat → Nat) : List Nat :=
  (text.take (size - 1) ++ [0]) ++
    (List.range (size - (text.take (size - 1) ++ [0]).length)).map
      (fun i => stack ((text.take (size - 1) ++ [0]).length + i))

/-- `AString::append(const char *s)`. -/
def AString.append_cstr (w : Nat) (junk : Nat → Nat) (a : AString) (s : List Nat) :
    Option AString := do
  let n ← strlen s
  a.append w junk s n

/-- `AString::append(int x)`. -/
def AString.append_int (w : Nat) (junk stack : Nat → Nat) (a : AString) (x : Int) :
    Option AString :=
  a.append_cstr w junk (snprintf 16 (fmtSigned x) stack)

/-- `AString::append(unsigned x)`. -/
def AString.append_unsigned (w : Nat) (junk stack : Nat → Nat) (a : AString) (x : Nat) :
    Option AString :=
  a.append_cstr w junk (snprintf 16 (fmtUnsigned x) stack)

/-- `AString::append(long x)`. -/
def AString.append_long (w : Nat) (junk stack : Nat → Nat) (a : AString) (x : Int) :
    Option AString :=
  a.append_cstr w junk (snprintf 32 (fmtSigned x) stack)

/-- `AString::append(unsigned long x)`. -/
def AString.append_ulong (w : Nat) (junk stack : Nat → Nat) (a : AString) (x : Nat) :
    Option AString :=
  a.append_cstr w junk (snprintf 32 (fmtUnsigned x) stack)

/-- `AString::append(long long x)`. -/
def AString.append_longlong (w : Nat) (junk stack : Nat → Nat) (a : AString) (x : Int) :
    Option AString :=
  a.append_cstr w junk (snprintf 32 (fmtSigned x) stack)

/-- `AString::append(unsigned long long x)`. -/
def AString.append_ulonglong (w : Nat) (junk stack : Nat → Nat) (a : AString) (x : Nat) :
    Option AString :=
  a.append_cstr w junk (snprintf 32 (fmtUnsigned x) stack)

/-- `AString::append(float x)` for an argument whose value is the non-negative
integer `k`. -/
def AString.append_float (w : Nat) (junk stack : Nat → Nat) (a : AString) (k : Nat) :
    Option AString :=
  a.append_cstr w junk (snprintf 16 (fmtFixedOfNat k) stack)

/-- `AString::append(double x)` for an argument whose value is the non-negative
integer `k`. -/
def AString.append_double (w : Nat) (junk stack : Nat → Nat) (a : AString) (k : Nat) :
    Option AString :=
  a.append_cstr w junk (snprintf 16 (fmtFixedOfNat k) stack)

/-- The number a string of ASCII decimal digits denotes. -/
def decValue (ds : List Nat) : Nat :=
  ds.foldl (fun acc d => 10 * acc + (d - 48)) 0

/-- The text `d` is the canonical decimal text of `x`: a `-` exactly when `x` is
negative, then decimal digits that denote the magnitude of `x`, with no leading
zero (the single digit `0` apart). -/
def IsCanonicalDecimal (d : List Nat) (x : Int) : Prop :=
  ∃ ds, d = (if x < 0 then 45 :: ds else ds) ∧ ds ≠ [] ∧ (∀ b ∈ ds, 48 ≤ b ∧ b ≤ 57) ∧
    decValue ds = x.natAbs ∧ (ds.head? = some 48 → ds = [48])

/-! ## Auxiliary facts -/

theorem land_negThirtyTwo (w v : Nat) (hw : 5 ≤ w) (hv : v < 2 ^ w) :
    v &&& negThirtyTwo w = v / 32 * 32 := by
  unfold negThirtyTwo
  apply Nat.eq_of_testBit_eq
  intro i
  have h32 : (32:Nat) = 2 ^ 5 := by norm_num
  have hm : 2 ^ w - 32 = 2 ^ 5 * (2 ^ (w - 5) - 1) := by
    have : 2 ^ w = 2 ^ 5 * 2 ^ (w - 5) := by rw [← pow_add]; congr 1; omega
    rw [this, Nat.mul_sub]; simp
  rw [Nat.testBit_land, hm, h32, Nat.mul_comm (v / 2 ^ 5), Nat.testBit_mul_pow_two,
    Nat.testBit_mul_pow_two, Nat.testBit_two_pow_sub_one, ← Nat.shiftRight_eq_div_pow,
    Nat.testBit_shiftRight]
  by_cases h5 : 5 ≤ i
  · simp only [ge_iff_le, h5, decide_True, Bool.true_and]
    have e : 5 + (i - 5) = i := by omega
    rw [e]
    by_cases hi : i < w
    · have : i - 5 < w - 5 := by omega
      simp [this]
    · have : ¬ (i - 5 < w - 5) := by omega
      simp only [this, decide_False, Bool.and_false]
      symm
      apply Nat.testBit_lt_two_pow
      calc v < 2 ^ w := hv
        _ ≤ 2 ^ i := Nat.pow_le_pow_right (by norm_num) (by omega)
  · simp [h5]

theorem addSz_of_lt {w a b : Nat} (h : a + b < 2 ^ w) : addSz w a b = a + b := by
  unfold addSz; exact Nat.mod_eq_of_lt h

theorem subSz_of_le {w a b : Nat} (h : b ≤ a) (ha : a < 2 ^ w) : subSz w a b = a - b := by
  unfold subSz
  have hb : b < 2 ^ w := by omega
  rw [Nat.mod_eq_of_lt ha, Nat.mod_eq_of_lt hb]
  have : a + 2 ^ w - b = (a - b) + 2 ^ w := by omega
  rw [this, Nat.add_mod_right]
  exact Nat.mod_eq_of_lt (by omega)

/-- A well-formed buffer, once made mutable, is a heap block that holds the
same content. -/
theorem makeMutable_heap {w : Nat} {a : AString} (h : a.WF w) (hw : 0 < w) :
    ∃ buf, a.makeMutable = ⟨Ptr.heap buf, a.mSize, buf.length⟩ ∧
      buf.length = a.mAllocSize ∧ a.mSize + 1 ≤ buf.length ∧ buf[a.mSize]? = some 0 ∧
      buf.length < 2 ^ w ∧ buf.take a.mSize = a.content := by
  obtain ⟨p, m, c⟩ := a
  cases p with
  | null => simp [AString.WF] at h
  | kEmptyString =>
    simp only [AString.WF] at h
    obtain ⟨h1, h2⟩ := h
    subst h1; subst h2
    refine ⟨[0], ?_⟩
    have : 1 < 2 ^ w := Nat.one_lt_two_pow (by omega)
    simp [AString.makeMutable, AString.content, Ptr.mem, this]
  | heap buf =>
    simp only [AString.WF] at h
    obtain ⟨h1, h2, h3, h4⟩ := h
    subst h1
    exact ⟨buf, by simp [AString.makeMutable], rfl, h2, h3, h4, by simp [AString.content, Ptr.mem]⟩

/-- The growth step on a heap block: the block is extended at its end (or kept)
and afterwards has room for `size` more bytes and the terminator. -/
theorem grow_heap (w : Nat) (junk : Nat → Nat) (buf : List Nat) (m size : Nat) (hw : 5 ≤ w)
    (h1 : m + 1 ≤ buf.length) (hov : buf.length + size + 31 < 2 ^ w) :
    ∃ ext, AString.grow w junk ⟨Ptr.heap buf, m, buf.length⟩ size =
        some ⟨Ptr.heap (buf ++ ext), m, (buf ++ ext).length⟩ ∧
      m + size + 1 ≤ (buf ++ ext).length ∧
      (buf ++ ext).length =
        (if m + size + 1 ≤ buf.length then buf.length else (buf.length + size + 31) / 32 * 32) := by
  have e1 : addSz w (addSz w m size) 1 = m + size + 1 := by
    have e : addSz w m size = m + size := addSz_of_lt (by omega)
    rw [e]; exact addSz_of_lt (by omega)
  have e2 : addSz w (addSz w buf.length size) 31 = buf.length + size + 31 := by
    have e : addSz w buf.length size = buf.length + size := addSz_of_lt (by omega)
    rw [e]; exact addSz_of_lt (by omega)
  by_cases hc : m + size + 1 ≤ buf.length
  · refine ⟨[], ?_⟩
    have : ¬ (m + size + 1 > buf.length) := by omega
    simp [AString.grow, e1, this, hc]
  · have hgt : m + size + 1 > buf.length := by omega
    have e3 : (buf.length + size + 31) &&& negThirtyTwo w = (buf.length + size + 31) / 32 * 32 :=
      land_negThirtyTwo w _ hw hov
    have hge : buf.length + size ≤ (buf.length + size + 31) / 32 * 32 := by omega
    refine ⟨(List.range ((buf.length + size + 31) / 32 * 32 - buf.length)).map
      (fun i => junk (buf.length + i)), ?_⟩
    have htake : List.take ((buf.length + size + 31) / 32 * 32) buf = buf :=
      List.take_of_length_le (by omega)
    simp only [AString.grow, e1, hgt, if_true, e2, e3, realloc, htake, hc, if_false,
      List.length_append, List.length_map, List.length_range]
    refine ⟨?_, by omega, by omega⟩
    simp only [Option.pure_def, Option.bind_eq_bind, Option.some_bind, Option.some.injEq,
      AString.mk.injEq, true_and]
    omega

theorem splice_length (B s : List Nat) (d n : Nat) (h : d + n ≤ B.length) (hs : n ≤ s.length) :
    (B.take d ++ s.take n ++ B.drop (d + n)).length = B.length := by
  simp only [List.length_append, List.length_take, List.length_drop]; omega

theorem splice_take (B s : List Nat) (d n : Nat) (h : d + n ≤ B.length) (hs : n ≤ s.length) :
    (B.take d ++ s.take n ++ B.drop (d + n)).take (d + n) = B.take d ++ s.take n := by
  apply List.take_left'
  simp only [List.length_append, List.length_take]; omega

theorem memcpy_ok (B s : List Nat) (d n : Nat) (h : d + n ≤ B.length) (hs : n ≤ s.length) :
    memcpy B d s n = some (B.take d ++ s.take n ++ B.drop (d + n)) := by
  unfold memcpy; rw [if_pos ⟨h, hs⟩]

theorem memmove_ok (B : List Nat) (d s n : Nat) (h : d + n ≤ B.length) (hs : s + n ≤ B.length) :
    memmove B d s n = some (B.take d ++ (B.drop s).take n ++ B.drop (d + n)) := by
  unfold memmove; rw [if_pos ⟨h, hs⟩]

theorem store_ok (B : List Nat) (i v : Nat) (h : i < B.length) :
    store B i v = some (B.set i v) := by
  unfold store; rw [if_pos h]

theorem take_set_le (B : List Nat) (k i v : Nat) (h : k ≤ i) :
    (B.set i v).take k = B.take k := by
  apply List.ext_getElem?
  intro n
  simp only [List.getElem?_take, List.getElem?_set]
  split
  · rw [if_neg (by omega)]
  · rfl

/-- What `append` does to a well-formed buffer when no `size_t` sum overflows. -/
theorem append_spec (w : Nat) (junk : Nat → Nat) (a : AString) (s : List Nat) (size : Nat)
    (hw : 5 ≤ w) (hwf : a.WF w) (hs : size ≤ s.length) (hov : a.mAllocSize + size + 31 < 2 ^ w) :
    ∃ buf, a.append w junk s size = some ⟨Ptr.heap buf, a.mSize + size, buf.length⟩ ∧
      buf.take (a.mSize + size) = a.content ++ s.take size ∧
      buf[a.mSize + size]? = some 0 ∧ a.mSize + size + 1 ≤ buf.length ∧ buf.length < 2 ^ w ∧
      buf.length = (if a.mSize + size + 1 ≤ a.mAllocSize then a.mAllocSize
        else (a.mAllocSize + size + 31) / 32 * 32) := by
  obtain ⟨b0, hm, hlen, hcap, hterm, hlt, hcont⟩ := makeMutable_heap hwf (by omega)
  obtain ⟨ext, hg, hroom, hnew⟩ := grow_heap w junk b0 a.mSize size hw hcap (by omega)
  have hadd : addSz w a.mSize size = a.mSize + size := addSz_of_lt (by omega)
  have hlen2 : (b0 ++ ext).length < 2 ^ w := by
    rw [hnew]; split <;> omega
  generalize hB : b0 ++ ext = B at hg hroom hnew hlen2
  have hl := splice_length B s a.mSize size (by omega) hs
  have ht := splice_take B s a.mSize size (by omega) hs
  have hpre : B.take a.mSize = a.content := by
    rw [← hB, List.take_append_of_le_length (by omega)]; exact hcont
  have hcpy := memcpy_ok B s a.mSize size (by omega) hs
  have hst := store_ok (List.take a.mSize B ++ List.take size s ++
      List.drop (a.mSize + size) B) (a.mSize + size) 0 (by omega)
  refine ⟨(List.take a.mSize B ++ List.take size s ++
      List.drop (a.mSize + size) B).set (a.mSize + size) 0, ?_, ?_, ?_, ?_, ?_, ?_⟩
  · simp only [AString.append, hm, hg, Option.bind_eq_bind, Option.some_bind, Ptr.heapBuf, hadd,
      hcpy, hst, List.length_set, hl, Option.pure_def]
  · rw [take_set_le _ _ _ _ (Nat.le_refl _), ht, hpre]
  · rw [List.getElem?_set_self (by omega)]
  · rw [List.length_set, hl]; omega
  · rw [List.length_set, hl]; exact hlen2
  · rw [List.length_set, hl, hnew, hlen]

theorem wf_heap (w : Nat) (buf : List Nat) (m : Nat) (h1 : m + 1 ≤ buf.length)
    (h2 : buf[m]? = some 0) (h3 : buf.length < 2 ^ w) :
    AString.WF w ⟨Ptr.heap buf, m, buf.length⟩ := by
  simp only [AString.WF]
  exact ⟨trivial, h1, h2, h3⟩

theorem content_heap (buf : List Nat) (m c : Nat) :
    AString.content ⟨Ptr.heap buf, m, c⟩ = buf.take m := rfl

theorem byteAt_heap (buf : List Nat) (m c i : Nat) :
    AString.byteAt ⟨Ptr.heap buf, m, c⟩ i = buf[i]? := rfl

theorem wf_cleared (w : Nat) (p : Ptr) (m c : Nat) : (AString.clear ⟨p, m, c⟩).WF w := by
  cases p <;> simp [AString.clear, AString.WF]

theorem content_cleared (p : Ptr) (m c : Nat) : (AString.clear ⟨p, m, c⟩).content = [] := by
  cases p <;> simp [AString.clear, AString.content, Ptr.mem]

/-- What `setTo` with a pointer and a length leaves, whatever the buffer was. -/
theorem setTo_spec (w : Nat) (junk : Nat → Nat) (p : Ptr) (m c : Nat) (s : List Nat)
    (hw : 5 ≤ w) (hfit : s.length + 32 < 2 ^ w) :
    ∃ buf, AString.setTo w junk ⟨p, m, c⟩ s s.length
        = some ⟨Ptr.heap buf, s.length, buf.length⟩ ∧
      buf.take s.length = s ∧ buf[s.length]? = some 0 := by
  have hwf := wf_cleared w p m c
  have hc := content_cleared p m c
  have hsz : (AString.clear ⟨p, m, c⟩).mSize = 0 := rfl
  have hal : (AString.clear ⟨p, m, c⟩).mAllocSize = 1 := rfl
  obtain ⟨buf, he, ht, hz, -, -, -⟩ :=
    append_spec w junk (AString.clear ⟨p, m, c⟩) s s.length hw hwf (Nat.le_refl _)
      (by rw [hal]; omega)
  rw [hsz, hc] at ht
  rw [hsz] at he hz
  simp only [Nat.zero_add, List.nil_append, List.take_length] at he ht hz
  exact ⟨buf, he, ht, hz⟩

/-- C1: constructing an AString from a non-null pointer to the bytes `s` with
explicit length `s.length` (zero bytes allowed inside `s`) succeeds and yields a
buffer whose `size()` is `s.length`, whose first `s.length` bytes are `s`, and
whose byte at index `s.length` is the zero terminator.  The length is one that
a `size_t` can hold with the headroom the capacity rounding needs. -/
theorem mkOfBytes_roundtrip (w : Nat) (junk : Nat → Nat) (s : List Nat) (hw : 5 ≤ w)
    (hfit : s.length + 32 < 2 ^ w) :
    ∃ a buf, AString.mkOfBytes w junk (some s) s.length = some a ∧
      a.size = s.length ∧ a.c_str = Ptr.heap buf ∧ buf.take s.length = s ∧
      buf[s.length]? = some 0 ∧ a.content = s ∧ a.byteAt s.length = some 0 := by
  obtain ⟨buf, he, ht, hz⟩ := setTo_spec w junk Ptr.null 0 1 s hw hfit
  have hmk : AString.mkOfBytes w junk (some s) s.length
      = AString.setTo w junk ⟨Ptr.null, 0, 1⟩ s s.length := rfl
  rw [hmk, he]
  refine ⟨_, buf, rfl, rfl, rfl, ht, hz, ?_, ?_⟩
  · rw [content_heap, ht]
  · rw [byteAt_heap, hz]

/-- Witness for C1: the three bytes `H`, zero, `i`. -/
theorem mkOfBytes_roundtrip_witness :
    (5 ≤ 64 ∧ [72, 0, 105].length + 32 < 2 ^ 64) ∧
    ∃ a buf, AString.mkOfBytes 64 (fun _ => 170) (some [72, 0, 105]) [72, 0, 105].length = some a ∧
      a.size = [72, 0, 105].length ∧ a.c_str = Ptr.heap buf ∧
      buf.take [72, 0, 105].length = [72, 0, 105] ∧
      buf[[72, 0, 105].length]? = some 0 ∧ a.content = [72, 0, 105] ∧
      a.byteAt [72, 0, 105].length = some 0 :=
  ⟨by decide, mkOfBytes_roundtrip 64 (fun _ => 170) [72, 0, 105] (by decide) (by decide)⟩

theorem wf_mk0 (w : Nat) : AString.mk0.WF w := by
  simp [AString.mk0, AString.WF]

/-- C2: starting from the empty buffer, `append(x, len x)` followed by
`append(y, len y)` succeeds and yields the same size and the same bytes
(content `x ++ y` and the terminator after it) as the buffer constructed
directly from `x ++ y`. -/
theorem append_append_eq_mkOfBytes (w : Nat) (j1 j2 j3 : Nat → Nat) (x y : List Nat)
    (hw : 5 ≤ w) (hfit : x.length + y.length + 63 < 2 ^ w) :
    ∃ a1 a2 c, AString.mk0.append w j1 x x.length = some a1 ∧
      a1.append w j2 y y.length = some a2 ∧
      AString.mkOfBytes w j3 (some (x ++ y)) (x ++ y).length = some c ∧
      a2.size = c.size ∧ a2.size = x.length + y.length ∧
      a2.content = c.content ∧ a2.content = x ++ y ∧
      a2.byteAt a2.size = some 0 ∧ c.byteAt c.size = some 0 := by
  have h0 : AString.mk0.mSize = 0 := rfl
  have h0a : AString.mk0.mAllocSize = 1 := rfl
  have h0c : AString.mk0.content = [] := rfl
  obtain ⟨b1, he1, ht1, hz1, hr1, hl1, hn1⟩ :=
    append_spec w j1 AString.mk0 x x.length hw (wf_mk0 w) (Nat.le_refl _) (by rw [h0a]; omega)
  rw [h0] at he1 ht1 hz1 hr1 hn1
  rw [h0c] at ht1
  rw [h0a] at hn1
  simp only [Nat.zero_add, List.nil_append, List.take_length] at he1 ht1 hz1 hr1 hn1
  have hb1 : b1.length ≤ x.length + 32 := by
    rw [hn1]; split <;> omega
  have hwf1 := wf_heap w b1 x.length hr1 hz1 hl1
  obtain ⟨b2, he2, ht2, hz2, -, -, -⟩ :=
    append_spec w j2 ⟨Ptr.heap b1, x.length, b1.length⟩ y y.length hw hwf1 (Nat.le_refl _)
      (by show b1.length + y.length + 31 < 2 ^ w; omega)
  rw [content_heap, ht1] at ht2
  simp only [List.take_length] at ht2
  obtain ⟨bc, hc, hct, hcz⟩ :=
    setTo_spec w j3 Ptr.null 0 1 (x ++ y) hw (by rw [List.length_append]; omega)
  have hmk : AString.mkOfBytes w j3 (some (x ++ y)) (x ++ y).length
      = AString.setTo w j3 ⟨Ptr.null, 0, 1⟩ (x ++ y) (x ++ y).length := rfl
  rw [← hmk] at hc
  refine ⟨_, _, _, he1, he2, hc, ?_, rfl, ?_, ?_, ?_, ?_⟩
  · show x.length + y.length = (x ++ y).length
    rw [List.length_append]
  · rw [content_heap, content_heap, hct]; exact ht2
  · rw [content_heap]; exact ht2
  · rw [byteAt_heap]; exact hz2
  · rw [byteAt_heap]; exact hcz

/-- Witness for C2: "Hello" then ", World". -/
theorem append_append_eq_mkOfBytes_witness :
    (5 ≤ 64 ∧ [72, 101, 108, 108, 111].length + [44, 32, 87, 111, 114, 108, 100].length + 63
      < 2 ^ 64) ∧
    ∃ a1 a2 c,
      AString.mk0.append 64 (fun _ => 1) [72, 101, 108, 108, 111] [72, 101, 108, 108, 111].length
        = some a1 ∧
      a1.append 64 (fun _ => 2) [44, 32, 87, 111, 114, 108, 100]
        [44, 32, 87, 111, 114, 108, 100].length = some a2 ∧
      AString.mkOfBytes 64 (fun _ => 3)
        (some ([72, 101, 108, 108, 111] ++ [44, 32, 87, 111, 114, 108, 100]))
        ([72, 101, 108, 108, 111] ++ [44, 32, 87, 111, 114, 108, 100]).length = some c ∧
      a2.size = c.size ∧
      a2.size = [72, 101, 108, 108, 111].length + [44, 32, 87, 111, 114, 108, 100].length ∧
      a2.content = c.content ∧
      a2.content = [72, 101, 108, 108, 111] ++ [44, 32, 87, 111, 114, 108, 100] ∧
      a2.byteAt a2.size = some 0 ∧ c.byteAt c.size = some 0 :=
  ⟨by decide, append_append_eq_mkOfBytes 64 (fun _ => 1) (fun _ => 2) (fun _ => 3)
    [72, 101, 108, 108, 111] [44, 32, 87, 111, 114, 108, 100] (by decide) (by decide)⟩

/-- The two block operations of `insert`, on the list of bytes. -/
theorem insert_bytes (B frm : List Nat) (m size pos : Nat) (h : m + size + 1 ≤ B.length)
    (hp : pos ≤ m) (hs : size ≤ frm.length) :
    ∃ B2, (memmove B (pos + size) pos (m - pos + 1)).bind (fun B1 => memcpy B1 pos frm size)
        = some B2 ∧
      B2.length = B.length ∧
      B2.take (m + size) = (B.take m).take pos ++ frm.take size ++ (B.take m).drop pos ∧
      B2[m + size]? = B[m]? := by
  have hmv := memmove_ok B (pos + size) pos (m - pos + 1) (by omega) (by omega)
  have hl1 : (B.take (pos + size) ++ (B.drop pos).take (m - pos + 1) ++
      B.drop (pos + size + (m - pos + 1))).length = B.length := by
    simp only [List.length_append, List.length_take, List.length_drop]; omega
  have hcp := memcpy_ok (B.take (pos + size) ++ (B.drop pos).take (m - pos + 1) ++
      B.drop (pos + size + (m - pos + 1))) frm pos size (by omega) hs
  rw [hmv, Option.some_bind, hcp]
  refine ⟨_, rfl, ?_, ?_, ?_⟩
  · rw [splice_length _ _ _ _ (by omega) hs, hl1]
  · apply List.ext_getElem?
    intro n
    simp only [List.getElem?_append, List.getElem?_take, List.getElem?_drop, List.length_take,
      List.length_append, List.length_drop]
    by_cases c1 : n < pos
    · simp (disch := omega) only [if_pos, if_neg]
    · by_cases c2 : n < pos + size
      · simp (disch := omega) only [if_pos, if_neg]
        congr 1; omega
      · by_cases c3 : n < m + size
        · simp (disch := omega) only [if_pos, if_neg]
          congr 1; omega
        · simp (disch := omega) only [if_pos, if_neg]
  · simp only [List.getElem?_append, List.getElem?_take, List.getElem?_drop, List.length_take,
      List.length_append, List.length_drop]
    simp (disch := omega) only [if_pos, if_neg]
    congr 1; omega

/-- What `insert` does to a well-formed buffer when the position is inside
the content and no `size_t` sum overflows. -/
theorem insert_spec (w : Nat) (junk : Nat → Nat) (a : AString) (frm : List Nat) (size pos : Nat)
    (hw : 5 ≤ w) (hwf : a.WF w) (hs : size ≤ frm.length) (hp : pos ≤ a.mSize)
    (hov : a.mAllocSize + size + 31 < 2 ^ w) :
    ∃ buf, a.insert w junk (Source.outside frm) size pos
        = some ⟨Ptr.heap buf, a.mSize + size, buf.length⟩ ∧
      buf.take (a.mSize + size) = a.content.take pos ++ frm.take size ++ a.content.drop pos ∧
      buf[a.mSize + size]? = some 0 ∧ a.mSize + size + 1 ≤ buf.length ∧ buf.length < 2 ^ w ∧
      buf.length = (if a.mSize + size + 1 ≤ a.mAllocSize then a.mAllocSize
        else (a.mAllocSize + size + 31) / 32 * 32) := by
  obtain ⟨b0, hm, hlen, hcap, hterm, hlt, hcont⟩ := makeMutable_heap hwf (by omega)
  obtain ⟨ext, hg, hroom, hnew⟩ := grow_heap w junk b0 a.mSize size hw hcap (by omega)
  have hlen2 : (b0 ++ ext).length < 2 ^ w := by
    rw [hnew]; split <;> omega
  have hpre : (b0 ++ ext).take a.mSize = a.content := by
    rw [List.take_append_of_le_length (by omega)]; exact hcont
  have hz : (b0 ++ ext)[a.mSize]? = some 0 := by
    rw [List.getElem?_append, if_pos (by omega)]; exact hterm
  generalize b0 ++ ext = B at hg hroom hnew hlen2 hpre hz
  have e1 : addSz w a.mSize size = a.mSize + size := addSz_of_lt (by omega)
  have e2 : addSz w pos size = pos + size := addSz_of_lt (by omega)
  have e3 : subSz w a.mSize pos = a.mSize - pos := subSz_of_le hp (by omega)
  have e4 : addSz w (a.mSize - pos) 1 = a.mSize - pos + 1 := addSz_of_lt (by omega)
  obtain ⟨B2, hB2, hl, ht, hterm2⟩ := insert_bytes B frm a.mSize size pos hroom hp hs
  refine ⟨B2, ?_, ?_, ?_, ?_, ?_, ?_⟩
  · simp only [AString.insert, insertCopy, hm, hg, Option.bind_eq_bind, Option.some_bind,
      Ptr.heapBuf, e1, e2, e3, e4, Option.pure_def]
    cases hmv : memmove B (pos + size) pos (a.mSize - pos + 1) with
    | none => rw [hmv] at hB2; simp at hB2
    | some B1 =>
      rw [hmv] at hB2
      simp only [Option.some_bind] at hB2 ⊢
      rw [hB2, Option.some_bind, hl]
  · rw [ht, hpre]
  · rw [hterm2, hz]
  · rw [hl]; exact hroom
  · rw [hl]; exact hlen2
  · rw [hl, hnew, hlen]

theorem memcpy_inv {B s B1 : List Nat} {d n : Nat} (h : memcpy B d s n = some B1) :
    d + n ≤ B.length ∧ n ≤ s.length ∧ B1.length = B.length := by
  unfold memcpy at h
  split at h
  · rename_i hc
    cases h
    exact ⟨hc.1, hc.2, splice_length B s d n hc.1 hc.2⟩
  · cases h

theorem memcpy_take (B x B2 : List Nat) (d n : Nat) (h : memcpy B d x n = some B2) :
    memcpy B d (x.take n) n = some B2 := by
  unfold memcpy at h ⊢
  split at h
  · rename_i hc
    rw [if_pos ⟨hc.1, by rw [List.length_take]; omega⟩, List.take_take, Nat.min_self]
    exact h
  · cases h

/-- Whatever the source, the copy step of `insert` is a `memcpy` of `size`
bytes: those found at the source when the copy runs. -/
theorem insertCopy_inv (w : Nat) (a : AString) (buf1 : List Nat) (frm : Source)
    (size pos : Nat) (B2 : List Nat) (h : insertCopy w a buf1 frm size pos = some B2) :
    ∃ x, x.length = size ∧ memcpy buf1 pos x size = some B2 := by
  cases frm with
  | outside bytes =>
    have h' : memcpy buf1 pos bytes size = some B2 := h
    have hn := (memcpy_inv h').2.1
    exact ⟨bytes.take size, by rw [List.length_take]; omega, memcpy_take _ _ _ _ _ h'⟩
  | inBuffer off =>
    unfold insertCopy at h
    simp only at h
    split at h
    · cases h
    · split at h
      · have hn := (memcpy_inv h).2.1
        exact ⟨([0].drop off).take size, by rw [List.length_take]; omega,
          memcpy_take _ _ _ _ _ h⟩
      · cases h
    · split at h
      · cases h
      · unfold memcpyWithin at h
        split at h
        · rename_i hc
          refine ⟨(buf1.drop off).take size, ?_, ?_⟩
          · rw [List.length_take, List.length_drop]; omega
          · unfold memcpy
            rw [if_pos ⟨hc.1, by rw [List.length_take, List.length_drop]; omega⟩,
              List.take_take, Nat.min_self]
            exact h
        · cases h

/-- A defined `insert` from any source is the `insert` of the bytes it copied,
taken from outside the storage. -/
theorem insert_eq_outside (w : Nat) (junk : Nat → Nat) (a : AString) (frm : Source)
    (size pos : Nat) (r : AString) (h : a.insert w junk frm size pos = some r) :
    ∃ x, x.length = size ∧ a.insert w junk (Source.outside x) size pos = some r := by
  unfold AString.insert at h ⊢
  simp only [Option.bind_eq_bind, Option.bind_eq_some, Option.pure_def, Option.some.injEq] at h
  obtain ⟨a2, hg, buf, hb, buf1, hmv, buf2, hcp, hr⟩ := h
  obtain ⟨x, hx, hm⟩ := insertCopy_inv w a buf1 frm size pos buf2 hcp
  refine ⟨x, hx, ?_⟩
  have hout : insertCopy w a buf1 (Source.outside x) size pos = some buf2 := hm
  simp only [Option.bind_eq_bind, hg, Option.some_bind, hb, hmv, hout, Option.pure_def, hr]

/-- The two writes of `erase`, on the list of bytes. -/
theorem erase_bytes (B : List Nat) (m start n : Nat) (h : m + 1 ≤ B.length)
    (hp : start + n ≤ m) :
    ∃ B2, (memmove B start (start + n) (m - start - n)).bind (fun B1 => store B1 (m - n) 0)
        = some B2 ∧
      B2.length = B.length ∧
      B2.take (m - n) = (B.take m).take start ++ (B.take m).drop (start + n) ∧
      B2[m - n]? = some 0 := by
  have hmv := memmove_ok B start (start + n) (m - start - n) (by omega) (by omega)
  have hl1 : (B.take start ++ (B.drop (start + n)).take (m - start - n) ++
      B.drop (start + (m - start - n))).length = B.length := by
    simp only [List.length_append, List.length_take, List.length_drop]; omega
  have hst := store_ok (B.take start ++ (B.drop (start + n)).take (m - start - n) ++
      B.drop (start + (m - start - n))) (m - n) 0 (by omega)
  rw [hmv, Option.some_bind, hst]
  refine ⟨_, rfl, ?_, ?_, ?_⟩
  · rw [List.length_set, hl1]
  · rw [take_set_le _ _ _ _ (Nat.le_refl _)]
    apply List.ext_getElem?
    intro k
    simp only [List.getElem?_append, List.getElem?_take, List.getElem?_drop, List.length_take,
      List.length_append, List.length_drop]
    by_cases c1 : k < start
    · simp (disch := omega) only [if_pos, if_neg]
    · by_cases c2 : k < m - n
      · simp (disch := omega) only [if_pos, if_neg]
        congr 1; omega
      · simp (disch := omega) only [if_pos, if_neg]
  · rw [List.getElem?_set_self (by omega)]

/-- What `erase` does to a well-formed buffer when the range is inside the
content. -/
theorem erase_spec (w : Nat) (a : AString) (start n : Nat) (hw : 5 ≤ w) (hwf : a.WF w)
    (hp : start + n ≤ a.mSize) :
    ∃ buf, a.erase w start n = some ⟨Ptr.heap buf, a.mSize - n, buf.length⟩ ∧
      buf.take (a.mSize - n) = a.content.take start ++ a.content.drop (start + n) ∧
      buf[a.mSize - n]? = some 0 ∧ buf.length = a.mAllocSize := by
  obtain ⟨B, hm, hlen, hcap, hterm, hlt, hcont⟩ := makeMutable_heap hwf (by omega)
  have e1 : addSz w start n = start + n := addSz_of_lt (by omega)
  have e2 : subSz w a.mSize start = a.mSize - start := subSz_of_le (by omega) (by omega)
  have e3 : subSz w (a.mSize - start) n = a.mSize - start - n :=
    subSz_of_le (by omega) (by omega)
  have e4 : subSz w a.mSize n = a.mSize - n := subSz_of_le (by omega) (by omega)
  obtain ⟨B2, hB2, hl, ht, hz⟩ := erase_bytes B a.mSize start n hcap hp
  refine ⟨B2, ?_, ?_, hz, ?_⟩
  · simp only [AString.erase, hm, Option.bind_eq_bind, Option.some_bind, Ptr.heapBuf, e1,
      e2, e3, e4, Option.pure_def]
    cases hmv : memmove B start (start + n) (a.mSize - start - n) with
    | none => rw [hmv] at hB2; simp at hB2
    | some B1 =>
      rw [hmv] at hB2
      simp only [Option.some_bind] at hB2 ⊢
      rw [hB2, Option.some_bind, hl]
  · rw [ht, hcont]
  · rw [hl, hlen]

theorem content_length {w : Nat} {a : AString} (h : a.WF w) : a.content.length = a.mSize := by
  obtain ⟨p, m, c⟩ := a
  cases p with
  | null => simp [AString.WF] at h
  | kEmptyString =>
    simp only [AString.WF] at h
    simp [AString.content, Ptr.mem, h.1]
  | heap buf =>
    simp only [AString.WF] at h
    simp only [AString.content, Ptr.mem, List.length_take]
    omega

theorem byteAt_size {w : Nat} {a : AString} (h : a.WF w) : a.byteAt a.mSize = some 0 := by
  obtain ⟨p, m, c⟩ := a
  cases p with
  | null => simp [AString.WF] at h
  | kEmptyString =>
    simp only [AString.WF] at h
    simp [AString.byteAt, Ptr.mem, h.1]
  | heap buf =>
    simp only [AString.WF] at h
    exact h.2.2.1

/-- C3 fails as stated when the bytes are read from the storage of the buffer
itself: on the buffer built from "abcdef", `insert(c_str() + 4, 2, 0)` is asked
to insert the bytes "ef" found at `c_str() + 4`, but the copy runs after the
tail has been moved and inserts "cd": the result is "cdabcdef", not
"efabcdef". -/
theorem insert_own_bytes_counterexample :
    (AString.mkOfBytes 64 (fun _ => 0) (some [97, 98, 99, 100, 101, 102]) 6).map
      (fun a => (a.content.drop 4).take 2) = some [101, 102] ∧
    ((AString.mkOfBytes 64 (fun _ => 0) (some [97, 98, 99, 100, 101, 102]) 6).bind
      (fun a => a.insert 64 (fun _ => 0) (Source.inBuffer 4) 2 0)).map AString.content
      = some [99, 100, 97, 98, 99, 100, 101, 102] ∧
    ((AString.mkOfBytes 64 (fun _ => 0) (some [97, 98, 99, 100, 101, 102]) 6).bind
      (fun a => a.insert 64 (fun _ => 0) (Source.inBuffer 4) 2 0)).map AString.content
      ≠ some (([97, 98, 99, 100, 101, 102] : List Nat).take 0 ++ [101, 102] ++
        ([97, 98, 99, 100, 101, 102] : List Nat).drop 0) := by
  decide

/-- C3 as amended: on a buffer with content `s`, for bytes `x` held outside the
storage of the buffer and a position `pos ≤ size`, `insert(x, len x, pos)`
succeeds and leaves content `s[0..pos) ++ x ++ s[pos..size)`, the size
increased by exactly `len x`, and a zero terminator at the new index `size`
(no `size_t` sum overflowing). -/
theorem insert_content (w : Nat) (junk : Nat → Nat) (a : AString) (x : List Nat) (pos : Nat)
    (hw : 5 ≤ w) (hwf : a.WF w) (hp : pos ≤ a.size)
    (hov : a.mAllocSize + x.length + 31 < 2 ^ w) :
    ∃ r, a.insert w junk (Source.outside x) x.length pos = some r ∧
      r.content = a.content.take pos ++ x ++ a.content.drop pos ∧
      r.size = a.size + x.length ∧ r.byteAt r.size = some 0 := by
  obtain ⟨buf, he, ht, hz, -, -, -⟩ :=
    insert_spec w junk a x x.length pos hw hwf (Nat.le_refl _) hp hov
  rw [List.take_length] at ht
  exact ⟨_, he, ht, rfl, hz⟩

/-- Witness for C3: inserting "XX" at position 1 of "Hi". -/
theorem insert_content_witness :
    (5 ≤ 64 ∧ AString.WF 64 ⟨Ptr.heap [72, 105, 0], 2, 3⟩ ∧
      1 ≤ AString.size ⟨Ptr.heap [72, 105, 0], 2, 3⟩ ∧
      AString.mAllocSize ⟨Ptr.heap [72, 105, 0], 2, 3⟩ + [88, 88].length + 31 < 2 ^ 64) ∧
    ∃ r, AString.insert 64 (fun _ => 7) ⟨Ptr.heap [72, 105, 0], 2, 3⟩ (Source.outside [88, 88])
        [88, 88].length 1
        = some r ∧
      r.content = (AString.content ⟨Ptr.heap [72, 105, 0], 2, 3⟩).take 1 ++ [88, 88] ++
        (AString.content ⟨Ptr.heap [72, 105, 0], 2, 3⟩).drop 1 ∧
      r.size = AString.size ⟨Ptr.heap [72, 105, 0], 2, 3⟩ + [88, 88].length ∧
      r.byteAt r.size = some 0 :=
  ⟨by decide, insert_content 64 (fun _ => 7) ⟨Ptr.heap [72, 105, 0], 2, 3⟩ [88, 88] 1
    (by decide) (by decide) (by decide) (by decide)⟩

/-- C4: on a buffer with content `s`, for `start + n ≤ size`, `erase(start, n)`
succeeds and leaves content `s[0..start) ++ s[start+n..size)`, the size reduced
by exactly `n`, and a zero terminator at the new index `size`. -/
theorem erase_content (w : Nat) (a : AString) (start n : Nat) (hw : 5 ≤ w) (hwf : a.WF w)
    (hp : start + n ≤ a.size) :
    ∃ r, a.erase w start n = some r ∧
      r.content = a.content.take start ++ a.content.drop (start + n) ∧
      r.size = a.size - n ∧ r.size + n = a.size ∧ r.byteAt r.size = some 0 := by
  obtain ⟨buf, he, ht, hz, -⟩ := erase_spec w a start n hw hwf hp
  refine ⟨_, he, ht, rfl, ?_, hz⟩
  show a.mSize - n + n = a.mSize
  have : start + n ≤ a.mSize := hp
  omega

/-- Witness for C4: erasing "el" from "Hello". -/
theorem erase_content_witness :
    (5 ≤ 64 ∧ AString.WF 64 ⟨Ptr.heap [72, 101, 108, 108, 111, 0, 9, 9], 5, 8⟩ ∧
      1 + 2 ≤ AString.size ⟨Ptr.heap [72, 101, 108, 108, 111, 0, 9, 9], 5, 8⟩) ∧
    ∃ r, AString.erase 64 ⟨Ptr.heap [72, 101, 108, 108, 111, 0, 9, 9], 5, 8⟩ 1 2 = some r ∧
      r.content = (AString.content ⟨Ptr.heap [72, 101, 108, 108, 111, 0, 9, 9], 5, 8⟩).take 1 ++
        (AString.content ⟨Ptr.heap [72, 101, 108, 108, 111, 0, 9, 9], 5, 8⟩).drop (1 + 2) ∧
      r.size = AString.size ⟨Ptr.heap [72, 101, 108, 108, 111, 0, 9, 9], 5, 8⟩ - 2 ∧
      r.size + 2 = AString.size ⟨Ptr.heap [72, 101, 108, 108, 111, 0, 9, 9], 5, 8⟩ ∧
      r.byteAt r.size = some 0 :=
  ⟨by decide, erase_content 64 ⟨Ptr.heap [72, 101, 108, 108, 111, 0, 9, 9], 5, 8⟩ 1 2
    (by decide) (by decide) (by decide)⟩

/-- C5: on any buffer, for bytes `x` and `pos ≤ size`, `insert(x, len x, pos)`
followed by `erase(pos, len x)` succeeds and restores the original size and
the original bytes (content and terminator); and whenever an `insert` of
`len x` bytes read from any source, the storage of the buffer included, is
defined, the `erase` that follows it restores the buffer in the same way. -/
theorem insert_erase_restores (w : Nat) (junk : Nat → Nat) (a : AString) (x : List Nat)
    (pos : Nat) (hw : 5 ≤ w) (hwf : a.WF w) (hp : pos ≤ a.size)
    (hov : a.mAllocSize + x.length + 31 < 2 ^ w) :
    (∃ r1 r2, a.insert w junk (Source.outside x) x.length pos = some r1 ∧
      r1.erase w pos x.length = some r2 ∧
      r2.size = a.size ∧ r2.content = a.content ∧
      r2.byteAt r2.size = a.byteAt a.size) ∧
    (∀ (frm : Source) (r1 : AString), a.insert w junk frm x.length pos = some r1 →
      ∃ r2, r1.erase w pos x.length = some r2 ∧
        r2.size = a.size ∧ r2.content = a.content ∧
        r2.byteAt r2.size = a.byteAt a.size) := by
  have key : ∀ (y : List Nat), y.length = x.length →
      ∃ r1 r2, a.insert w junk (Source.outside y) x.length pos = some r1 ∧
        r1.erase w pos x.length = some r2 ∧
        r2.size = a.size ∧ r2.content = a.content ∧
        r2.byteAt r2.size = a.byteAt a.size := by
    intro y hy
    obtain ⟨b1, he1, ht1, hz1, hr1, hl1, -⟩ :=
      insert_spec w junk a y x.length pos hw hwf (by omega) hp hov
    have hty : y.take x.length = y := List.take_of_length_le (by omega)
    rw [hty] at ht1
    have hwf1 := wf_heap w b1 (a.mSize + x.length) hr1 hz1 hl1
    have hp' : pos ≤ a.mSize := hp
    obtain ⟨b2, he2, ht2, hz2, -⟩ :=
      erase_spec w ⟨Ptr.heap b1, a.mSize + x.length, b1.length⟩ pos x.length hw hwf1
        (by show pos + x.length ≤ a.mSize + x.length; omega)
    have hcl := content_length hwf
    simp only [Nat.add_sub_cancel] at he2 ht2 hz2
    rw [content_heap, ht1] at ht2
    have hlp : (a.content.take pos).length = pos := by
      rw [List.length_take, hcl]; omega
    have e1 : (a.content.take pos ++ y ++ a.content.drop pos).take pos
        = a.content.take pos := by
      rw [List.append_assoc]; exact List.take_left' hlp
    have e2 : (a.content.take pos ++ y ++ a.content.drop pos).drop (pos + x.length)
        = a.content.drop pos := by
      apply List.drop_left'
      rw [List.length_append, hlp, hy]
    rw [e1, e2, List.take_append_drop] at ht2
    refine ⟨_, _, he1, he2, rfl, ?_, ?_⟩
    · rw [content_heap]; exact ht2
    · show b2[a.mSize]? = a.byteAt a.mSize
      rw [byteAt_size hwf]; exact hz2
  refine ⟨key x rfl, ?_⟩
  intro frm r1 h
  obtain ⟨y, hy, hins⟩ := insert_eq_outside w junk a frm x.length pos r1 h
  obtain ⟨r1', r2, h1, h2, h3⟩ := key y hy
  rw [hins] at h1
  cases h1
  exact ⟨r2, h2, h3⟩

/-- Witness for C5: on the empty buffer, with three bytes one of which is zero. -/
theorem insert_erase_restores_witness :
    (5 ≤ 64 ∧ AString.mk0.WF 64 ∧ 0 ≤ AString.mk0.size ∧
      AString.mk0.mAllocSize + [1, 0, 2].length + 31 < 2 ^ 64) ∧
    ((∃ r1 r2, AString.mk0.insert 64 (fun _ => 7) (Source.outside [1, 0, 2]) [1, 0, 2].length 0
        = some r1 ∧
      r1.erase 64 0 [1, 0, 2].length = some r2 ∧
      r2.size = AString.mk0.size ∧ r2.content = AString.mk0.content ∧
      r2.byteAt r2.size = AString.mk0.byteAt AString.mk0.size) ∧
    (∀ (frm : Source) (r1 : AString),
      AString.mk0.insert 64 (fun _ => 7) frm [1, 0, 2].length 0 = some r1 →
      ∃ r2, r1.erase 64 0 [1, 0, 2].length = some r2 ∧
        r2.size = AString.mk0.size ∧ r2.content = AString.mk0.content ∧
        r2.byteAt r2.size = AString.mk0.byteAt AString.mk0.size)) :=
  ⟨by decide, insert_erase_restores 64 (fun _ => 7) AString.mk0 [1, 0, 2] 0
    (by decide) (by decide) (by decide) (by decide)⟩

/-- The first loop of `trim` stops at the first index that does not hold a
whitespace byte (or at `m`). -/
theorem trimFwd_spec (sc : Bool) (buf : List Nat) (m : Nat) (hm : m ≤ buf.length) :
    ∀ (fuel i : Nat), i ≤ m → m - i < fuel →
      ∃ i', trimFwd sc buf m fuel i = some i' ∧ i ≤ i' ∧ i' ≤ m ∧
        (∀ k, i ≤ k → k < i' → ∃ c, buf[k]? = some c ∧ isspace (charToInt sc c) = true) ∧
        (i' < m → ∃ c, buf[i']? = some c ∧ isspace (charToInt sc c) = false) := by
  intro fuel
  induction fuel with
  | zero => intro i _ h; omega
  | succ f ih =>
    intro i hi hf
    unfold trimFwd
    by_cases hlt : i < m
    · rw [if_pos hlt]
      have hb : i < buf.length := by omega
      rw [List.getElem?_eq_getElem hb]
      simp only
      cases hsp : isspace (charToInt sc buf[i]) with
      | true =>
        simp only [if_true]
        obtain ⟨i', he, h1, h2, h3, h4⟩ := ih (i + 1) (by omega) (by omega)
        refine ⟨i', he, by omega, h2, ?_, h4⟩
        intro k hk1 hk2
        by_cases hk : k = i
        · subst hk
          exact ⟨buf[k], List.getElem?_eq_getElem hb, hsp⟩
        · exact h3 k (by omega) hk2
      | false =>
        simp only [Bool.false_eq_true, if_false]
        refine ⟨i, rfl, Nat.le_refl _, hi, ?_, ?_⟩
        · intro k hk1 hk2; omega
        · intro _; exact ⟨buf[i], List.getElem?_eq_getElem hb, hsp⟩
    · rw [if_neg hlt]
      refine ⟨i, rfl, Nat.le_refl _, hi, ?_, ?_⟩
      · intro k hk1 hk2; omega
      · intro h; omega

/-- The second loop of `trim` stops just after the last index at or after `i`
that does not hold a whitespace byte (or at `i`). -/
theorem trimBwd_spec (sc : Bool) (buf : List Nat) (i : Nat) :
    ∀ (fuel j : Nat), j ≤ buf.length → j - i < fuel →
      ∃ j', trimBwd sc buf i fuel j = some j' ∧ j' ≤ j ∧ (i ≤ j → i ≤ j') ∧
        (∀ k, j' ≤ k → k < j → ∃ c, buf[k]? = some c ∧ isspace (charToInt sc c) = true) ∧
        (i < j' → ∃ c, buf[j' - 1]? = some c ∧ isspace (charToInt sc c) = false) := by
  intro fuel
  induction fuel with
  | zero => intro j _ h; omega
  | succ f ih =>
    intro j hj hf
    unfold trimBwd
    by_cases hlt : j > i
    · rw [if_pos hlt]
      have hb : j - 1 < buf.length := by omega
      rw [List.getElem?_eq_getElem hb]
      simp only
      cases hsp : isspace (charToInt sc buf[j - 1]) with
      | true =>
        simp only [if_true]
        obtain ⟨j', he, h1, h2, h3, h4⟩ := ih (j - 1) (by omega) (by omega)
        refine ⟨j', he, by omega, fun _ => h2 (by omega), ?_, h4⟩
        intro k hk1 hk2
        by_cases hk : k = j - 1
        · subst hk
          exact ⟨buf[j - 1], List.getElem?_eq_getElem hb, hsp⟩
        · exact h3 k hk1 (by omega)
      | false =>
        simp only [Bool.false_eq_true, if_false]
        refine ⟨j, rfl, Nat.le_refl _, fun h => h, ?_, ?_⟩
        · intro k hk1 hk2; omega
        · intro _; exact ⟨buf[j - 1], List.getElem?_eq_getElem hb, hsp⟩
    · rw [if_neg hlt]
      refine ⟨j, rfl, Nat.le_refl _, fun h => h, ?_, ?_⟩
      · intro k hk1 hk2; omega
      · intro h; omega

/-- The two writes of `trim`, on the list of bytes. -/
theorem trim_bytes (B : List Nat) (m i j : Nat) (h : m + 1 ≤ B.length) (hij : i ≤ j)
    (hj : j ≤ m) :
    ∃ B2, (memmove B 0 i (j - i)).bind (fun B1 => store B1 (j - i) 0) = some B2 ∧
      B2.length = B.length ∧
      B2.take (j - i) = ((B.take m).drop i).take (j - i) ∧
      B2[j - i]? = some 0 := by
  have hmv := memmove_ok B 0 i (j - i) (by omega) (by omega)
  have hl1 : (B.take 0 ++ (B.drop i).take (j - i) ++ B.drop (0 + (j - i))).length = B.length := by
    simp only [List.length_append, List.length_take, List.length_drop]; omega
  have hst := store_ok (B.take 0 ++ (B.drop i).take (j - i) ++ B.drop (0 + (j - i)))
    (j - i) 0 (by omega)
  rw [hmv, Option.some_bind, hst]
  refine ⟨_, rfl, ?_, ?_, ?_⟩
  · rw [List.length_set, hl1]
  · rw [take_set_le _ _ _ _ (Nat.le_refl _)]
    apply List.ext_getElem?
    intro k
    simp only [List.getElem?_append, List.getElem?_take, List.getElem?_drop, List.length_take,
      List.length_append, List.length_drop]
    by_cases c1 : k < j - i
    · simp (disch := omega) only [if_pos, if_neg]
      congr 1; omega
    · simp (disch := omega) only [if_pos, if_neg]
  · rw [List.getElem?_set_self (by omega)]

/-- What `trim` does to a well-formed buffer: `i` and `j` are the indices the
two loops stop at. -/
theorem trim_spec (w : Nat) (sc : Bool) (a : AString) (hw : 5 ≤ w) (hwf : a.WF w) :
    ∃ B2 i j, a.trim w sc = some ⟨Ptr.heap B2, j - i, B2.length⟩ ∧ i ≤ j ∧ j ≤ a.mSize ∧
      B2.length = a.mAllocSize ∧ B2.take (j - i) = (a.content.drop i).take (j - i) ∧
      B2[j - i]? = some 0 ∧
      (∀ k, k < i → ∃ c, a.content[k]? = some c ∧ isspace (charToInt sc c) = true) ∧
      (i < a.mSize → ∃ c, a.content[i]? = some c ∧ isspace (charToInt sc c) = false) ∧
      (∀ k, j ≤ k → k < a.mSize →
        ∃ c, a.content[k]? = some c ∧ isspace (charToInt sc c) = true) ∧
      (i < j → ∃ c, a.content[j - 1]? = some c ∧ isspace (charToInt sc c) = false) := by
  obtain ⟨B, hm, hlen, hcap, hterm, hlt, hcont⟩ := makeMutable_heap hwf (by omega)
  obtain ⟨i, hi, -, him, hi1, hi2⟩ :=
    trimFwd_spec sc B a.mSize (by omega) (a.mSize + 1) 0 (Nat.zero_le _) (by omega)
  obtain ⟨j, hj, hjm, hij, hj1, hj2⟩ :=
    trimBwd_spec sc B i (a.mSize + 1) a.mSize (by omega) (by omega)
  have hij' : i ≤ j := hij him
  have e1 : subSz w j i = j - i := subSz_of_le hij' (by omega)
  obtain ⟨B2, hB2, hl, ht, hz⟩ := trim_bytes B a.mSize i j hcap hij' hjm
  have hget : ∀ k, k < a.mSize → a.content[k]? = B[k]? := by
    intro k hk
    rw [← hcont, List.getElem?_take, if_pos hk]
  refine ⟨B2, i, j, ?_, hij', hjm, ?_, ?_, hz, ?_, ?_, ?_, ?_⟩
  · simp only [AString.trim, hm, Option.bind_eq_bind, Option.some_bind, Ptr.heapBuf, hi, hj, e1,
      Option.pure_def]
    cases hmv : memmove B 0 i (j - i) with
    | none => rw [hmv] at hB2; simp at hB2
    | some B1 =>
      rw [hmv] at hB2
      simp only [Option.some_bind] at hB2 ⊢
      rw [hB2, Option.some_bind, hl]
  · rw [hl, hlen]
  · rw [ht, hcont]
  · intro k hk
    rw [hget k (by omega)]
    exact hi1 k (Nat.zero_le _) hk
  · intro h
    rw [hget i h]
    exact hi2 h
  · intro k hk1 hk2
    rw [hget k hk2]
    exact hj1 k hk1 hk2
  · intro h
    rw [hget (j - 1) (by omega)]
    exact hj2 h

theorem isspace_iff (sc : Bool) (b : Nat) (hb : b < 128) :
    isspace (charToInt sc b) = true ↔ isAsciiWhitespace b := by
  have hc : charToInt sc b = (b : Int) := by
    unfold charToInt
    rw [if_neg (by omega)]
  rw [hc]
  simp only [isspace, isAsciiWhitespace, Bool.or_eq_true, beq_iff_eq, Bool.and_eq_true,
    decide_eq_true_eq]
  omega

theorem isspace_false_iff (sc : Bool) (b : Nat) (hb : b < 128) :
    isspace (charToInt sc b) = false ↔ ¬ isAsciiWhitespace b := by
  rw [← isspace_iff sc b hb]; simp

/-- C6: on a buffer whose content `s` has bytes in 0..127, `trim()` succeeds and
leaves content `s[i..j)` and size `j - i`, where every byte before `i` is ASCII
whitespace and the byte at `i` is not (`i = size` when there is none), every
byte from `j` on is whitespace and, when `i < j`, the byte at `j - 1` is not;
the terminator is in place, and the result neither begins nor ends with a
whitespace byte. -/
theorem trim_content (w : Nat) (sc : Bool) (a : AString) (hw : 5 ≤ w) (hwf : a.WF w)
    (hascii : ∀ b ∈ a.content, b < 128) :
    ∃ r i j, a.trim w sc = some r ∧ i ≤ j ∧ j ≤ a.size ∧
      (∀ k, k < i → ∃ b, a.content[k]? = some b ∧ isAsciiWhitespace b) ∧
      (i < a.size → ∃ b, a.content[i]? = some b ∧ ¬ isAsciiWhitespace b) ∧
      (∀ k, j ≤ k → k < a.size → ∃ b, a.content[k]? = some b ∧ isAsciiWhitespace b) ∧
      (i < j → ∃ b, a.content[j - 1]? = some b ∧ ¬ isAsciiWhitespace b) ∧
      r.content = (a.content.drop i).take (j - i) ∧ r.size = j - i ∧
      r.byteAt r.size = some 0 ∧
      (∀ b, r.content.head? = some b → ¬ isAsciiWhitespace b) ∧
      (∀ b, r.content.getLast? = some b → ¬ isAsciiWhitespace b) := by
  obtain ⟨B2, i, j, he, hij, hjm, -, ht, hz, h1, h2, h3, h4⟩ := trim_spec w sc a hw hwf
  have hcl := content_length hwf
  have hlt : ∀ (k c : Nat), a.content[k]? = some c → c < 128 := by
    intro k c hk
    exact hascii c (List.getElem?_mem hk)
  have h2' : i < a.size → ∃ b, a.content[i]? = some b ∧ ¬ isAsciiWhitespace b := by
    intro h
    obtain ⟨c, hc1, hc2⟩ := h2 h
    exact ⟨c, hc1, (isspace_false_iff sc c (hlt _ _ hc1)).1 hc2⟩
  have h4' : i < j → ∃ b, a.content[j - 1]? = some b ∧ ¬ isAsciiWhitespace b := by
    intro h
    obtain ⟨c, hc1, hc2⟩ := h4 h
    exact ⟨c, hc1, (isspace_false_iff sc c (hlt _ _ hc1)).1 hc2⟩
  have hlen : ((a.content.drop i).take (j - i)).length = j - i := by
    rw [List.length_take, List.length_drop, hcl]; omega
  refine ⟨_, i, j, he, hij, hjm, ?_, h2', ?_, h4', ?_, rfl, hz, ?_, ?_⟩
  · intro k hk
    obtain ⟨c, hc1, hc2⟩ := h1 k hk
    exact ⟨c, hc1, (isspace_iff sc c (hlt _ _ hc1)).1 hc2⟩
  · intro k hk1 hk2
    obtain ⟨c, hc1, hc2⟩ := h3 k hk1 hk2
    exact ⟨c, hc1, (isspace_iff sc c (hlt _ _ hc1)).1 hc2⟩
  · rw [content_heap]; exact ht
  · intro b hb
    rw [content_heap, ht] at hb
    by_cases hlt' : i < j
    · obtain ⟨c, hc1, hc2⟩ := h2' (by show i < a.mSize; omega)
      rw [List.head?_eq_getElem?, List.getElem?_take, if_pos (by omega), List.getElem?_drop,
        Nat.add_zero, hc1] at hb
      cases hb
      exact hc2
    · have : j - i = 0 := by omega
      rw [this, List.take_zero] at hb
      simp at hb
  · intro b hb
    rw [content_heap, ht] at hb
    by_cases hlt' : i < j
    · obtain ⟨c, hc1, hc2⟩ := h4' hlt'
      have e : i + (j - i - 1) = j - 1 := by omega
      rw [List.getLast?_eq_getElem?, hlen, List.getElem?_take, if_pos (by omega),
        List.getElem?_drop, e, hc1] at hb
      cases hb
      exact hc2
    · have : j - i = 0 := by omega
      rw [this, List.take_zero] at hb
      simp at hb

/-- Witness for C6: the buffer "  pad  ". -/
theorem trim_content_witness :
    (5 ≤ 64 ∧ AString.WF 64 ⟨Ptr.heap [32, 32, 112, 97, 100, 32, 32, 0], 7, 8⟩ ∧
      ∀ b ∈ AString.content ⟨Ptr.heap [32, 32, 112, 97, 100, 32, 32, 0], 7, 8⟩, b < 128) ∧
    AString.trim 64 true ⟨Ptr.heap [32, 32, 112, 97, 100, 32, 32, 0], 7, 8⟩
      = some ⟨Ptr.heap [112, 97, 100, 0, 100, 32, 32, 0], 3, 8⟩ ∧
    ∃ r i j, AString.trim 64 true ⟨Ptr.heap [32, 32, 112, 97, 100, 32, 32, 0], 7, 8⟩ = some r ∧
      i ≤ j ∧ j ≤ AString.size ⟨Ptr.heap [32, 32, 112, 97, 100, 32, 32, 0], 7, 8⟩ ∧
      (∀ k, k < i → ∃ b,
        (AString.content ⟨Ptr.heap [32, 32, 112, 97, 100, 32, 32, 0], 7, 8⟩)[k]? = some b ∧
        isAsciiWhitespace b) ∧
      (i < AString.size ⟨Ptr.heap [32, 32, 112, 97, 100, 32, 32, 0], 7, 8⟩ → ∃ b,
        (AString.content ⟨Ptr.heap [32, 32, 112, 97, 100, 32, 32, 0], 7, 8⟩)[i]? = some b ∧
        ¬ isAsciiWhitespace b) ∧
      (∀ k, j ≤ k → k < AString.size ⟨Ptr.heap [32, 32, 112, 97, 100, 32, 32, 0], 7, 8⟩ → ∃ b,
        (AString.content ⟨Ptr.heap [32, 32, 112, 97, 100, 32, 32, 0], 7, 8⟩)[k]? = some b ∧
        isAsciiWhitespace b) ∧
      (i < j → ∃ b,
        (AString.content ⟨Ptr.heap [32, 32, 112, 97, 100, 32, 32, 0], 7, 8⟩)[j - 1]? = some b ∧
        ¬ isAsciiWhitespace b) ∧
      r.content = ((AString.content ⟨Ptr.heap [32, 32, 112, 97, 100, 32, 32, 0], 7, 8⟩).drop i).take
        (j - i) ∧
      r.size = j - i ∧ r.byteAt r.size = some 0 ∧
      (∀ b, r.content.head? = some b → ¬ isAsciiWhitespace b) ∧
      (∀ b, r.content.getLast? = some b → ¬ isAsciiWhitespace b) :=
  ⟨by decide, by decide,
    trim_content 64 true ⟨Ptr.heap [32, 32, 112, 97, 100, 32, 32, 0], 7, 8⟩
      (by decide) (by decide) (by decide)⟩

theorem set_same (B : List Nat) (i v : Nat) (h : B[i]? = some v) : B.set i v = B := by
  apply List.ext_getElem?
  intro n
  rw [List.getElem?_set]
  split
  · rename_i e
    subst e
    rw [h]
    have : i < B.length := by
      by_contra hc
      rw [List.getElem?_eq_none (by omega)] at h
      cases h
    rw [if_pos this]
  · rfl

/-- A buffer whose content neither begins nor ends with a whitespace byte is
left exactly as it is by `trim`. -/
theorem trim_fixed (w : Nat) (sc : Bool) (B : List Nat) (m : Nat) (h1 : m + 1 ≤ B.length)
    (hz : B[m]? = some 0) (hlt : B.length < 2 ^ w)
    (hfirst : 0 < m → ∃ c, B[0]? = some c ∧ isspace (charToInt sc c) = false)
    (hlast : 0 < m → ∃ c, B[m - 1]? = some c ∧ isspace (charToInt sc c) = false) :
    AString.trim w sc ⟨Ptr.heap B, m, B.length⟩ = some ⟨Ptr.heap B, m, B.length⟩ := by
  obtain ⟨i, hi, -, him, hi1, -⟩ :=
    trimFwd_spec sc B m (by omega) (m + 1) 0 (Nat.zero_le _) (by omega)
  have hi0 : i = 0 := by
    by_contra hne
    obtain ⟨c, hc1, hc2⟩ := hi1 0 (Nat.le_refl _) (by omega)
    obtain ⟨c', hc1', hc2'⟩ := hfirst (by omega)
    rw [hc1] at hc1'
    cases hc1'
    rw [hc2] at hc2'
    cases hc2'
  subst hi0
  obtain ⟨j, hj, hjm, -, hj1, -⟩ := trimBwd_spec sc B 0 (m + 1) m (by omega) (by omega)
  have hjm' : j = m := by
    by_contra hne
    obtain ⟨c, hc1, hc2⟩ := hj1 (m - 1) (by omega) (by omega)
    obtain ⟨c', hc1', hc2'⟩ := hlast (by omega)
    rw [hc1] at hc1'
    cases hc1'
    rw [hc2] at hc2'
    cases hc2'
  subst hjm'
  have e1 : subSz w j 0 = j := by
    have := subSz_of_le (Nat.zero_le j) (show j < 2 ^ w by omega)
    simpa using this
  have hmv : memmove B 0 0 j = some B := by
    rw [memmove_ok B 0 0 j (by omega) (by omega)]
    simp
  have hst : store B j 0 = some B := by
    rw [store_ok B j 0 (by omega), set_same B j 0 hz]
  have hmm : AString.makeMutable ⟨Ptr.heap B, j, B.length⟩ = ⟨Ptr.heap B, j, B.length⟩ := by
    simp [AString.makeMutable]
  simp only [AString.trim, hmm, Option.bind_eq_bind, Option.some_bind, Ptr.heapBuf, hi, hj, e1,
    hmv, hst, Option.pure_def]

/-- C7: `trim()` is idempotent: on any buffer the first `trim()` succeeds and a
second `trim()` returns the very same state (same size, same bytes). -/
theorem trim_idempotent (w : Nat) (sc : Bool) (a : AString) (hw : 5 ≤ w) (hwf : a.WF w) :
    ∃ r, a.trim w sc = some r ∧ r.trim w sc = some r ∧
      (∀ r2, r.trim w sc = some r2 → r2.size = r.size ∧ r2.content = r.content) := by
  obtain ⟨B2, i, j, he, hij, hjm, hl, ht, hz, -, h2, -, h4⟩ := trim_spec w sc a hw hwf
  have hcl := content_length hwf
  have hal : a.mSize + 1 ≤ a.mAllocSize ∧ a.mAllocSize < 2 ^ w := by
    obtain ⟨B, -, hlen, hcap, -, hlt, -⟩ := makeMutable_heap hwf (show 0 < w by omega)
    omega
  have hget : ∀ (k : Nat), k < j - i → B2[k]? = a.content[i + k]? := by
    intro k hk
    have : (B2.take (j - i))[k]? = ((a.content.drop i).take (j - i))[k]? := by rw [ht]
    rw [List.getElem?_take, if_pos hk, List.getElem?_take, if_pos hk, List.getElem?_drop] at this
    exact this
  have hfix := trim_fixed w sc B2 (j - i) (by omega) hz (by omega)
    (by
      intro hpos
      obtain ⟨c, hc1, hc2⟩ := h2 (by omega)
      exact ⟨c, by rw [hget 0 hpos]; exact hc1, hc2⟩)
    (by
      intro hpos
      obtain ⟨c, hc1, hc2⟩ := h4 (by omega)
      have e : i + (j - i - 1) = j - 1 := by omega
      exact ⟨c, by rw [hget (j - i - 1) (by omega), e]; exact hc1, hc2⟩)
  refine ⟨_, he, hfix, ?_⟩
  intro r2 hr2
  rw [hfix] at hr2
  cases hr2
  exact ⟨rfl, rfl⟩

/-- Witness for C7: a buffer holding tab, "a b", newline. -/
theorem trim_idempotent_witness :
    (5 ≤ 64 ∧ AString.WF 64 ⟨Ptr.heap [9, 97, 32, 98, 10, 0], 5, 6⟩) ∧
    ∃ r, AString.trim 64 false ⟨Ptr.heap [9, 97, 32, 98, 10, 0], 5, 6⟩ = some r ∧
      r.trim 64 false = some r ∧
      (∀ r2, r.trim 64 false = some r2 → r2.size = r.size ∧ r2.content = r.content) :=
  ⟨by decide, trim_idempotent 64 false ⟨Ptr.heap [9, 97, 32, 98, 10, 0], 5, 6⟩
    (by decide) (by decide)⟩

theorem tolower_byte (sc : Bool) (b : Nat) (hb : b < 256) :
    intToChar (tolowerC (charToInt sc b)) = asciiLower b := by
  unfold intToChar tolowerC charToInt asciiLower
  by_cases h1 : sc = true ∧ 128 ≤ b
  · rw [if_pos h1]
    rw [if_neg (by omega), if_neg (by omega)]
    omega
  · rw [if_neg h1]
    by_cases h2 : 65 ≤ b ∧ b ≤ 90
    · rw [if_pos (by omega), if_pos h2]; omega
    · rw [if_neg (by omega), if_neg h2]; omega

theorem asciiLower_lt (b : Nat) (hb : b < 256) : asciiLower b < 256 := by
  unfold asciiLower; split <;> omega

theorem asciiLower_idem (b : Nat) : asciiLower (asciiLower b) = asciiLower b := by
  unfold asciiLower
  by_cases h : 65 ≤ b ∧ b ≤ 90
  · rw [if_pos h, if_neg (by omega)]
  · rw [if_neg h, if_neg h]

/-- The loop of `tolower` maps the bytes at indices `i ≤ k < m` through the
case folding and leaves the rest of the block alone. -/
theorem tolowerLoop_spec (sc : Bool) (m : Nat) :
    ∀ (fuel i : Nat) (buf : List Nat), i ≤ m → m ≤ buf.length → m - i < fuel →
      ∃ buf', tolowerLoop sc m fuel i buf = some buf' ∧ buf'.length = buf.length ∧
        ∀ (k : Nat), buf'[k]? = if i ≤ k ∧ k < m
          then buf[k]?.map (fun c => intToChar (tolowerC (charToInt sc c))) else buf[k]? := by
  intro fuel
  induction fuel with
  | zero => intro i buf _ _ h; omega
  | succ f ih =>
    intro i buf hi hm hf
    unfold tolowerLoop
    by_cases hlt : i < m
    · rw [if_pos hlt]
      have hb : i < buf.length := by omega
      rw [List.getElem?_eq_getElem hb]
      simp only
      obtain ⟨buf', he, hl, hk⟩ :=
        ih (i + 1) (buf.set i (intToChar (tolowerC (charToInt sc buf[i])))) (by omega)
          (by rw [List.length_set]; exact hm) (by omega)
      refine ⟨buf', he, by rw [hl, List.length_set], ?_⟩
      intro k
      rw [hk k, List.getElem?_set]
      by_cases hki : i = k
      · subst hki
        rw [if_neg (by omega), if_pos rfl, if_pos hb, if_pos ⟨Nat.le_refl _, hlt⟩,
          List.getElem?_eq_getElem hb]
        rfl
      · rw [if_neg hki]
        by_cases hc : i + 1 ≤ k ∧ k < m
        · rw [if_pos hc, if_pos (by omega)]
        · rw [if_neg hc, if_neg (by omega)]
    · rw [if_neg hlt]
      refine ⟨buf, rfl, rfl, ?_⟩
      intro k
      rw [if_neg (by omega)]

/-- What `tolower` does to a heap block that has room for its content. -/
theorem tolower_heap (sc : Bool) (B : List Nat) (m c : Nat) (h : m ≤ B.length) :
    ∃ B', AString.tolower sc ⟨Ptr.heap B, m, c⟩ = some ⟨Ptr.heap B', m, c⟩ ∧
      B'.length = B.length ∧
      ∀ (k : Nat), B'[k]? = if k < m
        then B[k]?.map (fun x => intToChar (tolowerC (charToInt sc x))) else B[k]? := by
  obtain ⟨B', he, hl, hk⟩ :=
    tolowerLoop_spec sc m (m + 1) 0 B (Nat.zero_le _) h (by omega)
  have hmm : AString.makeMutable ⟨Ptr.heap B, m, c⟩ = ⟨Ptr.heap B, m, c⟩ := by
    simp [AString.makeMutable]
  refine ⟨B', ?_, hl, ?_⟩
  · simp only [AString.tolower, hmm, Option.bind_eq_bind, Option.some_bind, Ptr.heapBuf, he,
      Option.pure_def]
  · intro k
    rw [hk k]
    by_cases hc : k < m
    · rw [if_pos ⟨Nat.zero_le _, hc⟩, if_pos hc]
    · rw [if_neg (by omega), if_neg hc]

/-- C8: on any buffer (of bytes, i.e. values below 256) `tolower()` succeeds,
keeps the size, replaces each byte in `A`..`Z` by the corresponding byte in
`a`..`z` and leaves every other byte (and the terminator) unchanged; applying it
a second time returns the very same state. -/
theorem tolower_content (w : Nat) (sc : Bool) (a : AString) (hw : 0 < w) (hwf : a.WF w)
    (hbytes : ∀ b ∈ a.content, b < 256) :
    ∃ r, a.tolower sc = some r ∧ r.size = a.size ∧
      r.content = a.content.map asciiLower ∧
      (∀ (k b : Nat), a.content[k]? = some b →
        (65 ≤ b ∧ b ≤ 90 → r.content[k]? = some (b + 32)) ∧
        (¬ (65 ≤ b ∧ b ≤ 90) → r.content[k]? = some b)) ∧
      r.byteAt r.size = some 0 ∧ r.tolower sc = some r := by
  obtain ⟨B, hm, hlen, hcap, hterm, hlt, hcont⟩ := makeMutable_heap hwf hw
  obtain ⟨B', he, hl, hk⟩ := tolower_heap sc B a.mSize B.length (by omega)
  have hmm : AString.makeMutable ⟨Ptr.heap B, a.mSize, B.length⟩
      = ⟨Ptr.heap B, a.mSize, B.length⟩ := by
    simp [AString.makeMutable]
  have he' : a.tolower sc = some ⟨Ptr.heap B', a.mSize, B.length⟩ := by
    rw [← he]
    simp only [AString.tolower, hm, hmm]
  have hlow : ∀ (k : Nat), k < a.mSize → B'[k]? = B[k]?.map asciiLower := by
    intro k hkm
    rw [hk k, if_pos hkm]
    have hb : k < B.length := by omega
    rw [List.getElem?_eq_getElem hb, Option.map_some', Option.map_some']
    have hmem : B[k] ∈ a.content := by
      rw [← hcont]
      apply List.getElem?_mem
      rw [List.getElem?_take, if_pos hkm]
      exact List.getElem?_eq_getElem hb
    rw [tolower_byte sc _ (hbytes _ hmem)]
  have hct : B'.take a.mSize = a.content.map asciiLower := by
    apply List.ext_getElem?
    intro k
    rw [List.getElem?_take, List.getElem?_map, ← hcont, List.getElem?_take]
    by_cases hkm : k < a.mSize
    · rw [if_pos hkm, if_pos hkm, hlow k hkm]
    · rw [if_neg hkm, if_neg hkm]; rfl
  have hz : B'[a.mSize]? = some 0 := by
    rw [hk a.mSize, if_neg (Nat.lt_irrefl _)]; exact hterm
  -- the second application
  obtain ⟨B'', he2, hl2, hk2⟩ := tolower_heap sc B' a.mSize B.length (by omega)
  have hsame : B'' = B' := by
    apply List.ext_getElem?
    intro k
    rw [hk2 k]
    by_cases hkm : k < a.mSize
    · rw [if_pos hkm, hlow k hkm]
      have hb : k < B.length := by omega
      rw [List.getElem?_eq_getElem hb, Option.map_some', Option.map_some']
      have hmem : B[k] ∈ a.content := by
        rw [← hcont]
        apply List.getElem?_mem
        rw [List.getElem?_take, if_pos hkm]
        exact List.getElem?_eq_getElem hb
      rw [tolower_byte sc _ (asciiLower_lt _ (hbytes _ hmem)), asciiLower_idem]
    · rw [if_neg hkm]
  rw [hsame] at he2
  refine ⟨_, he', rfl, ?_, ?_, hz, he2⟩
  · rw [content_heap]; exact hct
  · intro k b hkb
    have hr : (AString.content ⟨Ptr.heap B', a.mSize, B.length⟩)[k]? = some (asciiLower b) := by
      rw [content_heap, hct, List.getElem?_map, hkb]; rfl
    constructor
    · intro hc
      rw [hr, asciiLower, if_pos hc]
    · intro hc
      rw [hr, asciiLower, if_neg hc]

/-- Witness for C8: the buffer "MiXeD". -/
theorem tolower_content_witness :
    (0 < 64 ∧ AString.WF 64 ⟨Ptr.heap [77, 105, 88, 101, 68, 0], 5, 6⟩ ∧
      ∀ b ∈ AString.content ⟨Ptr.heap [77, 105, 88, 101, 68, 0], 5, 6⟩, b < 256) ∧
    AString.tolower true ⟨Ptr.heap [77, 105, 88, 101, 68, 0], 5, 6⟩
      = some ⟨Ptr.heap [109, 105, 120, 101, 100, 0], 5, 6⟩ ∧
    ∃ r, AString.tolower true ⟨Ptr.heap [77, 105, 88, 101, 68, 0], 5, 6⟩ = some r ∧
      r.size = AString.size ⟨Ptr.heap [77, 105, 88, 101, 68, 0], 5, 6⟩ ∧
      r.content = (AString.content ⟨Ptr.heap [77, 105, 88, 101, 68, 0], 5, 6⟩).map asciiLower ∧
      (∀ (k b : Nat),
        (AString.content ⟨Ptr.heap [77, 105, 88, 101, 68, 0], 5, 6⟩)[k]? = some b →
        (65 ≤ b ∧ b ≤ 90 → r.content[k]? = some (b + 32)) ∧
        (¬ (65 ≤ b ∧ b ≤ 90) → r.content[k]? = some b)) ∧
      r.byteAt r.size = some 0 ∧ r.tolower true = some r :=
  ⟨by decide, by decide,
    tolower_content 64 true ⟨Ptr.heap [77, 105, 88, 101, 68, 0], 5, 6⟩
      (by decide) (by decide) (by decide)⟩

/-- The bytes readable through the data pointer of a well-formed buffer. -/
theorem wf_mem {w : Nat} {a : AString} (h : a.WF w) :
    ∃ B, a.mData.mem = some B ∧ a.mSize + 1 ≤ B.length ∧ a.content = B.take a.mSize ∧
      (∀ i, a.byteAt i = B[i]?) ∧ B[a.mSize]? = some 0 := by
  obtain ⟨p, m, c⟩ := a
  cases p with
  | null => simp [AString.WF] at h
  | kEmptyString =>
    simp only [AString.WF] at h
    obtain ⟨h1, h2⟩ := h
    subst h1
    exact ⟨[0], rfl, by simp, rfl, fun _ => rfl, rfl⟩
  | heap buf =>
    simp only [AString.WF] at h
    obtain ⟨h1, h2, h3, h4⟩ := h
    exact ⟨buf, rfl, by show m + 1 ≤ buf.length; omega, rfl, fun _ => rfl, h3⟩

/-- `memcmp` on blocks that hold at least `n` bytes returns zero exactly when
the first `n` bytes agree. -/
theorem memcmp_spec : ∀ (n : Nat) (p q : List Nat), n ≤ p.length → n ≤ q.length →
    ∃ r, memcmp p q n = some r ∧ (r = 0 ↔ p.take n = q.take n) := by
  intro n
  induction n with
  | zero =>
    intro p q _ _
    exact ⟨0, by simp [memcmp], by simp⟩
  | succ k ih =>
    intro p q hp hq
    cases p with
    | nil => simp at hp
    | cons x xs =>
      cases q with
      | nil => simp at hq
      | cons y ys =>
        simp only [List.length_cons, Nat.add_le_add_iff_right] at hp hq
        unfold memcmp
        by_cases hxy : x = y
        · rw [if_pos hxy]
          obtain ⟨r, hr, hiff⟩ := ih xs ys hp hq
          refine ⟨r, hr, ?_⟩
          rw [hiff, List.take_succ_cons, List.take_succ_cons, hxy]
          simp
        · rw [if_neg hxy]
          refine ⟨(x : Int) - (y : Int), rfl, ?_⟩
          rw [List.take_succ_cons, List.take_succ_cons]
          constructor
          · intro h; exfalso; apply hxy; omega
          · intro h
            rw [List.cons.injEq] at h
            exact absurd h.1 hxy

theorem take_eq_iff_getElem? (p q : List Nat) (n : Nat) :
    p.take n = q.take n ↔ ∀ i, i < n → p[i]? = q[i]? := by
  constructor
  · intro h i hi
    have : (p.take n)[i]? = (q.take n)[i]? := by rw [h]
    rw [List.getElem?_take, List.getElem?_take, if_pos hi, if_pos hi] at this
    exact this
  · intro h
    apply List.ext_getElem?
    intro i
    rw [List.getElem?_take, List.getElem?_take]
    by_cases hi : i < n
    · rw [if_pos hi, if_pos hi]; exact h i hi
    · rw [if_neg hi, if_neg hi]

/-- What `operator==` returns on well-formed buffers: it compares the sizes
and the contents. -/
theorem operatorEq_spec (w : Nat) (a b : AString) (ha : a.WF w) (hb : b.WF w) :
    ∃ r, a.operatorEq b = some r ∧ (r = true ↔ a.mSize = b.mSize ∧ a.content = b.content) := by
  obtain ⟨P, hP, hPl, hPc, -, -⟩ := wf_mem ha
  obtain ⟨Q, hQ, hQl, hQc, -, -⟩ := wf_mem hb
  unfold AString.operatorEq
  by_cases hs : a.mSize = b.mSize
  · rw [if_pos hs, hP, hQ]
    obtain ⟨r, hr, hiff⟩ := memcmp_spec a.mSize P Q (by omega) (by omega)
    simp only [Option.bind_eq_bind, Option.some_bind, hr, Option.pure_def]
    refine ⟨r == 0, rfl, ?_⟩
    rw [beq_iff_eq, hiff, hPc, hQc, ← hs]
    constructor
    · intro h; exact ⟨rfl, h⟩
    · intro h; exact h.2
  · rw [if_neg hs]
    refine ⟨false, rfl, ?_⟩
    constructor
    · intro h; cases h
    · intro h; exact absurd h.1 hs

/-- C9: for all buffers `a` and `b`, `a == b` returns a result, and the result
is true if and only if `a.size()` equals `b.size()` and the bytes at every index
below the size are equal; the comparison goes by the explicit length, so zero
bytes inside the content are compared like any other byte. -/
theorem operatorEq_iff (w : Nat) (a b : AString) (ha : a.WF w) (hb : b.WF w) :
    ∃ r, a.operatorEq b = some r ∧
      (r = true ↔ a.size = b.size ∧ ∀ i, i < a.size → a.byteAt i = b.byteAt i) ∧
      (r = true ↔ a.size = b.size ∧ a.content = b.content) := by
  obtain ⟨r, hr, hiff⟩ := operatorEq_spec w a b ha hb
  obtain ⟨P, -, -, hPc, hPb, -⟩ := wf_mem ha
  obtain ⟨Q, -, -, hQc, hQb, -⟩ := wf_mem hb
  refine ⟨r, hr, ?_, hiff⟩
  rw [hiff]
  constructor
  · intro h
    refine ⟨h.1, ?_⟩
    intro i hi
    have hc := h.2
    rw [hPc, hQc, ← h.1] at hc
    rw [hPb, hQb]
    exact (take_eq_iff_getElem? P Q a.mSize).1 hc i hi
  · intro h
    have hs : a.mSize = b.mSize := h.1
    refine ⟨hs, ?_⟩
    rw [hPc, hQc, ← hs]
    apply (take_eq_iff_getElem? P Q a.mSize).2
    intro i hi
    have := h.2 i hi
    rw [hPb, hQb] at this
    exact this

/-- Witness for C9: two buffers that agree up to an embedded zero byte and
differ after it. -/
theorem operatorEq_iff_witness :
    (AString.WF 64 ⟨Ptr.heap [97, 0, 98, 0], 3, 4⟩ ∧
      AString.WF 64 ⟨Ptr.heap [97, 0, 99, 0], 3, 4⟩) ∧
    AString.operatorEq ⟨Ptr.heap [97, 0, 98, 0], 3, 4⟩ ⟨Ptr.heap [97, 0, 99, 0], 3, 4⟩
      = some false ∧
    ∃ r, AString.operatorEq ⟨Ptr.heap [97, 0, 98, 0], 3, 4⟩ ⟨Ptr.heap [97, 0, 99, 0], 3, 4⟩
        = some r ∧
      (r = true ↔ AString.size ⟨Ptr.heap [97, 0, 98, 0], 3, 4⟩
          = AString.size ⟨Ptr.heap [97, 0, 99, 0], 3, 4⟩ ∧
        ∀ i, i < AString.size ⟨Ptr.heap [97, 0, 98, 0], 3, 4⟩ →
          AString.byteAt ⟨Ptr.heap [97, 0, 98, 0], 3, 4⟩ i
            = AString.byteAt ⟨Ptr.heap [97, 0, 99, 0], 3, 4⟩ i) ∧
      (r = true ↔ AString.size ⟨Ptr.heap [97, 0, 98, 0], 3, 4⟩
          = AString.size ⟨Ptr.heap [97, 0, 99, 0], 3, 4⟩ ∧
        AString.content ⟨Ptr.heap [97, 0, 98, 0], 3, 4⟩
          = AString.content ⟨Ptr.heap [97, 0, 99, 0], 3, 4⟩) :=
  ⟨by decide, by decide,
    operatorEq_iff 64 ⟨Ptr.heap [97, 0, 98, 0], 3, 4⟩ ⟨Ptr.heap [97, 0, 99, 0], 3, 4⟩
      (by decide) (by decide)⟩

/-- The loop of `hash` folds the bytes at indices `i ≤ k < m` into `x`. -/
theorem hashLoop_spec (w : Nat) (sc : Bool) (buf : List Nat) (m : Nat) (hm : m ≤ buf.length) :
    ∀ (fuel i x : Nat), i ≤ m → m - i < fuel →
      hashLoop w sc buf m fuel i x = some
        ((((buf.take m).drop i).map (fun b => intToSz w (charToInt sc b))).foldl
          (fun h v => (h * 31 + v) % 2 ^ w) x) := by
  intro fuel
  induction fuel with
  | zero => intro i x _ h; omega
  | succ f ih =>
    intro i x hi hf
    unfold hashLoop
    by_cases hlt : i < m
    · rw [if_pos hlt]
      have hb : i < buf.length := by omega
      have hbt : i < (buf.take m).length := by rw [List.length_take]; omega
      rw [List.getElem?_eq_getElem hb]
      simp only
      rw [ih (i + 1) _ (by omega) (by omega), List.drop_eq_getElem_cons hbt, List.map_cons,
        List.foldl_cons, List.getElem_take]
      congr 2
      unfold addSz mulSz
      exact Nat.mod_add_mod _ _ _
    · rw [if_neg hlt]
      have : (buf.take m).drop i = [] := by
        apply List.drop_eq_nil_of_le
        rw [List.length_take]; omega
      rw [this]; rfl

/-- The hash of a well-formed buffer is a function of its content. -/
theorem hash_spec (w : Nat) (sc : Bool) (a : AString) (hwf : a.WF w) :
    a.hash w sc = some (hashFold w (a.content.map (fun b => intToSz w (charToInt sc b)))) := by
  obtain ⟨B, hB, hl, hc, -, -⟩ := wf_mem hwf
  unfold AString.hash
  rw [hB, Option.bind_eq_bind, Option.some_bind,
    hashLoop_spec w sc B a.mSize (by omega) (a.mSize + 1) 0 0 (Nat.zero_le _) (by omega),
    List.drop_zero, hc]
  rfl

theorem intToSz_natCast (w b : Nat) : intToSz w (b : Int) = b % 2 ^ w := by
  unfold intToSz
  rw [← Int.natCast_mod, Int.toNat_natCast]

theorem intToSz_charToInt (w : Nat) (sc : Bool) (b : Nat) (hw : 8 ≤ w) (hb : b < 256) :
    intToSz w (charToInt sc b) = charAsSize w sc b := by
  have hpow : 2 ^ 8 ≤ 2 ^ w := Nat.pow_le_pow_right (by decide) hw
  have h256 : 256 ≤ 2 ^ w := by simpa using hpow
  unfold charToInt charAsSize
  by_cases hc : sc = true ∧ 128 ≤ b
  · rw [if_pos hc, if_pos hc]
    unfold intToSz
    have h256' : (256 : Int) ≤ ((2 ^ w : Nat) : Int) := by exact_mod_cast h256
    have hmod : ((b : Int) - 256) % ((2 ^ w : Nat) : Int)
        = (b : Int) - 256 + ((2 ^ w : Nat) : Int) := by
      rw [← Int.add_emod_self]
      exact Int.emod_eq_of_lt (by omega) (by omega)
    rw [hmod]
    omega
  · rw [if_neg hc, if_neg hc, intToSz_natCast]
    exact Nat.mod_eq_of_lt (by omega)

/-- C10 fails as stated where plain `char` is signed: the buffer holding the
single byte 200 hashes to `2 ^ 64 - 56`, while the fold `h <- h * 31 + byte`
over its bytes is 200 (which is what the code returns where `char` is
unsigned). -/
theorem hash_fold_counterexample :
    AString.WF 64 ⟨Ptr.heap [200, 0], 1, 2⟩ ∧
    AString.hash 64 true ⟨Ptr.heap [200, 0], 1, 2⟩ = some (2 ^ 64 - 56) ∧
    hashFold 64 (AString.content ⟨Ptr.heap [200, 0], 1, 2⟩) = 200 ∧
    AString.hash 64 true ⟨Ptr.heap [200, 0], 1, 2⟩
      ≠ some (hashFold 64 (AString.content ⟨Ptr.heap [200, 0], 1, 2⟩)) ∧
    AString.hash 64 false ⟨Ptr.heap [200, 0], 1, 2⟩ = some 200 := by
  decide

/-- C10 as amended: on any buffer `hash()` returns the left fold
`h <- h * 31 + c` over the `size` bytes of the content in order, seeded at 0,
in wrapping `size_t` arithmetic, where `c` is the value the byte has as a
`char` converted to `size_t`: the byte itself where plain `char` is unsigned or
the byte is below 128, and the sign-extended `2 ^ w - 256 + byte` where plain
`char` is signed and the byte is 128 or more.  The empty buffer hashes to 0,
and a buffer that compares equal with `==` has the same hash. -/
theorem hash_eq_fold (w : Nat) (sc : Bool) (a : AString) (hwf : a.WF w) :
    ∃ h, a.hash w sc = some h ∧
      h = hashFold w (a.content.map (fun b => intToSz w (charToInt sc b))) ∧
      (8 ≤ w → (∀ b ∈ a.content, b < 256) →
        h = hashFold w (a.content.map (charAsSize w sc))) ∧
      ((sc = false ∨ ∀ b ∈ a.content, b < 128) → h = hashFold w a.content) ∧
      (a.size = 0 → h = 0) ∧
      (∀ b : AString, b.WF w → a.operatorEq b = some true → b.hash w sc = some h) := by
  have hcl := content_length hwf
  refine ⟨_, hash_spec w sc a hwf, rfl, ?_, ?_, ?_, ?_⟩
  · intro hw hbytes
    congr 1
    apply List.map_congr_left
    intro b hb
    exact intToSz_charToInt w sc b hw (hbytes b hb)
  · intro hcase
    unfold hashFold
    rw [List.foldl_map]
    apply List.foldl_ext
    intro h b hb
    have hcv : charToInt sc b = (b : Int) := by
      unfold charToInt
      rcases hcase with hsc | hlt
      · rw [hsc]; simp
      · have := hlt b hb
        rw [if_neg (by omega)]
    rw [hcv, intToSz_natCast, Nat.add_mod_mod]
  · intro hs
    have : a.content = [] := by
      apply List.eq_nil_of_length_eq_zero
      rw [hcl]; exact hs
    rw [this]; rfl
  · intro b hb heq
    obtain ⟨r, hr, hiff⟩ := operatorEq_spec w a b hwf hb
    rw [heq] at hr
    cases hr
    have hc := (hiff.1 rfl).2
    rw [hash_spec w sc b hb, hc]

/-- Witness for the amended C10: the buffer holding `H` and the byte 200, with
signed plain `char`. -/
theorem hash_eq_fold_witness :
    AString.WF 64 ⟨Ptr.heap [72, 200, 0], 2, 3⟩ ∧
    AString.hash 64 true ⟨Ptr.heap [72, 200, 0], 2, 3⟩ = some 2176 ∧
    hashFold 64 ((AString.content ⟨Ptr.heap [72, 200, 0], 2, 3⟩).map (charAsSize 64 true))
      = 2176 ∧
    ∃ h, AString.hash 64 true ⟨Ptr.heap [72, 200, 0], 2, 3⟩ = some h ∧
      h = hashFold 64 ((AString.content ⟨Ptr.heap [72, 200, 0], 2, 3⟩).map
        (fun b => intToSz 64 (charToInt true b))) ∧
      (8 ≤ 64 → (∀ b ∈ AString.content ⟨Ptr.heap [72, 200, 0], 2, 3⟩, b < 256) →
        h = hashFold 64 ((AString.content ⟨Ptr.heap [72, 200, 0], 2, 3⟩).map
          (charAsSize 64 true))) ∧
      ((true = false ∨ ∀ b ∈ AString.content ⟨Ptr.heap [72, 200, 0], 2, 3⟩, b < 128) →
        h = hashFold 64 (AString.content ⟨Ptr.heap [72, 200, 0], 2, 3⟩)) ∧
      (AString.size ⟨Ptr.heap [72, 200, 0], 2, 3⟩ = 0 → h = 0) ∧
      (∀ b : AString, b.WF 64 →
        AString.operatorEq ⟨Ptr.heap [72, 200, 0], 2, 3⟩ b = some true →
        b.hash 64 true = some h) :=
  ⟨by decide, by decide, by decide,
    hash_eq_fold 64 true ⟨Ptr.heap [72, 200, 0], 2, 3⟩ (by decide)⟩

/-- The block of a well-formed buffer is its content, the terminator, and
whatever follows. -/
theorem wf_split {w : Nat} {a : AString} (h : a.WF w) :
    ∃ rest, a.mData.mem = some (a.content ++ 0 :: rest) := by
  obtain ⟨B, hB, hl, hc, -, hz⟩ := wf_mem h
  refine ⟨B.drop (a.mSize + 1), ?_⟩
  rw [hB, hc]
  congr 1
  have hlt : a.mSize < B.length := by omega
  have h0 : B[a.mSize] = 0 := by
    rw [List.getElem?_eq_getElem hlt] at hz
    exact Option.some.inj hz
  rw [← h0, List.getElem_cons_drop, List.take_append_drop]

/-- `strcmp` on two C strings orders them lexicographically. -/
theorem strcmp_spec (ra rb : List Nat) :
    ∀ (ca cb : List Nat), 0 ∉ ca → 0 ∉ cb →
      ∃ r, strcmp (ca ++ 0 :: ra) (cb ++ 0 :: rb) = some r ∧
        (r < 0 ↔ lexLt ca cb = true) ∧ (r = 0 ↔ ca = cb) ∧ (0 < r ↔ lexLt cb ca = true) := by
  intro ca
  induction ca with
  | nil =>
    intro cb _ hb
    cases cb with
    | nil => exact ⟨0, by simp [strcmp], by simp [lexLt], by simp, by simp [lexLt]⟩
    | cons y ys =>
      have hy : y ≠ 0 := by
        intro e; apply hb; rw [e]; exact List.mem_cons_self _ _
      have hy' : (0 : Nat) ≠ y := fun e => hy e.symm
      refine ⟨(0 : Int) - (y : Int), by simp [strcmp, hy'], ?_, ?_, ?_⟩
      · simp only [lexLt, iff_true]; omega
      · simp only [List.nil_eq, reduceCtorEq, iff_false]; omega
      · simp only [lexLt, Bool.false_eq_true, iff_false]; omega
  | cons x xs ih =>
    intro cb ha hb
    have hx : x ≠ 0 := by
      intro e; apply ha; rw [e]; exact List.mem_cons_self _ _
    have hxs : 0 ∉ xs := fun hm => ha (List.mem_cons_of_mem _ hm)
    cases cb with
    | nil =>
      refine ⟨(x : Int) - (0 : Int), by simp [strcmp, hx], ?_, ?_, ?_⟩
      · simp only [lexLt, Bool.false_eq_true, iff_false]; omega
      · simp only [reduceCtorEq, iff_false]; omega
      · simp only [lexLt, iff_true]; omega
    | cons y ys =>
      have hys : 0 ∉ ys := fun hm => hb (List.mem_cons_of_mem _ hm)
      by_cases hxy : x = y
      · subst hxy
        obtain ⟨r, hr, h1, h2, h3⟩ := ih ys hxs hys
        refine ⟨r, by simp [strcmp, hx, hr], ?_, ?_, ?_⟩
        · rw [h1]; simp [lexLt]
        · rw [h2]; simp
        · rw [h3]; simp [lexLt]
      · refine ⟨(x : Int) - (y : Int), by simp [strcmp, hxy], ?_, ?_, ?_⟩
        · have hyx : ¬ y = x := fun e => hxy e.symm
          simp only [lexLt, hxy, decide_False, Bool.false_and, Bool.or_false, decide_eq_true_eq]
          omega
        · simp only [List.cons.injEq, hxy, false_and, iff_false]; omega
        · have hyx : ¬ y = x := fun e => hxy e.symm
          simp only [lexLt, hyx, decide_False, Bool.false_and, Bool.or_false, decide_eq_true_eq]
          omega

/-- What `compare` returns on well-formed buffers whose contents hold no zero
byte. -/
theorem compare_spec (w : Nat) (a b : AString) (ha : a.WF w) (hb : b.WF w)
    (hza : 0 ∉ a.content) (hzb : 0 ∉ b.content) :
    ∃ r, a.compare b = some r ∧ (r < 0 ↔ lexLt a.content b.content = true) ∧
      (r = 0 ↔ a.content = b.content) ∧ (0 < r ↔ lexLt b.content a.content = true) := by
  obtain ⟨ra, hma⟩ := wf_split ha
  obtain ⟨rb, hmb⟩ := wf_split hb
  obtain ⟨r, hr, h1, h2, h3⟩ := strcmp_spec ra rb a.content b.content hza hzb
  refine ⟨r, ?_, h1, h2, h3⟩
  simp only [AString.compare, hma, hmb, Option.bind_eq_bind, Option.some_bind, hr]

/-- C11: for buffers `a` and `b` whose contents hold no zero byte, `compare`
returns a result that is negative, zero or positive exactly when the bytes of
`a` are lexicographically less than, equal to, or greater than the bytes of `b`
(unsigned byte order, a proper initial segment first); `a < b` is true exactly
when `a` is lexicographically smaller, `a > b` exactly when `b < a`, and
`compare(a, b) == 0` exactly when `a == b`. -/
theorem compare_lex (w : Nat) (a b : AString) (ha : a.WF w) (hb : b.WF w)
    (hza : 0 ∉ a.content) (hzb : 0 ∉ b.content) :
    ∃ r lt gt lt', a.compare b = some r ∧ a.operatorLt b = some lt ∧
      a.operatorGt b = some gt ∧ b.operatorLt a = some lt' ∧
      (r < 0 ↔ lexLt a.content b.content = true) ∧ (r = 0 ↔ a.content = b.content) ∧
      (0 < r ↔ lexLt b.content a.content = true) ∧
      (lt = true ↔ lexLt a.content b.content = true) ∧ (gt = true ↔ lt' = true) ∧
      (r = 0 ↔ a.operatorEq b = some true) := by
  obtain ⟨r, hr, h1, h2, h3⟩ := compare_spec w a b ha hb hza hzb
  obtain ⟨r', hr', h1', -, -⟩ := compare_spec w b a hb ha hzb hza
  obtain ⟨e, he, hiff⟩ := operatorEq_spec w a b ha hb
  refine ⟨r, decide (r < 0), decide (r > 0), decide (r' < 0), hr, ?_, ?_, ?_, h1, h2, h3, ?_, ?_, ?_⟩
  · simp only [AString.operatorLt, hr, Option.bind_eq_bind, Option.some_bind, Option.pure_def]
  · simp only [AString.operatorGt, hr, Option.bind_eq_bind, Option.some_bind, Option.pure_def]
  · simp only [AString.operatorLt, hr', Option.bind_eq_bind, Option.some_bind, Option.pure_def]
  · rw [decide_eq_true_iff]; exact h1
  · rw [decide_eq_true_iff, decide_eq_true_iff, h1']; exact h3
  · rw [h2, he]
    constructor
    · intro hc
      have hs : a.mSize = b.mSize := by
        rw [← content_length ha, ← content_length hb, hc]
      rw [Option.some.injEq]
      exact hiff.2 ⟨hs, hc⟩
    · intro ht
      rw [Option.some.injEq] at ht
      exact (hiff.1 ht).2

/-- Witness for C11: "abc" against "abd". -/
theorem compare_lex_witness :
    (AString.WF 64 ⟨Ptr.heap [97, 98, 99, 0], 3, 4⟩ ∧
      AString.WF 64 ⟨Ptr.heap [97, 98, 100, 0, 7], 3, 5⟩ ∧
      0 ∉ AString.content ⟨Ptr.heap [97, 98, 99, 0], 3, 4⟩ ∧
      0 ∉ AString.content ⟨Ptr.heap [97, 98, 100, 0, 7], 3, 5⟩) ∧
    AString.compare ⟨Ptr.heap [97, 98, 99, 0], 3, 4⟩ ⟨Ptr.heap [97, 98, 100, 0, 7], 3, 5⟩
      = some (-1) ∧
    ∃ r lt gt lt',
      AString.compare ⟨Ptr.heap [97, 98, 99, 0], 3, 4⟩ ⟨Ptr.heap [97, 98, 100, 0, 7], 3, 5⟩
        = some r ∧
      AString.operatorLt ⟨Ptr.heap [97, 98, 99, 0], 3, 4⟩ ⟨Ptr.heap [97, 98, 100, 0, 7], 3, 5⟩
        = some lt ∧
      AString.operatorGt ⟨Ptr.heap [97, 98, 99, 0], 3, 4⟩ ⟨Ptr.heap [97, 98, 100, 0, 7], 3, 5⟩
        = some gt ∧
      AString.operatorLt ⟨Ptr.heap [97, 98, 100, 0, 7], 3, 5⟩ ⟨Ptr.heap [97, 98, 99, 0], 3, 4⟩
        = some lt' ∧
      (r < 0 ↔ lexLt (AString.content ⟨Ptr.heap [97, 98, 99, 0], 3, 4⟩)
        (AString.content ⟨Ptr.heap [97, 98, 100, 0, 7], 3, 5⟩) = true) ∧
      (r = 0 ↔ AString.content ⟨Ptr.heap [97, 98, 99, 0], 3, 4⟩
        = AString.content ⟨Ptr.heap [97, 98, 100, 0, 7], 3, 5⟩) ∧
      (0 < r ↔ lexLt (AString.content ⟨Ptr.heap [97, 98, 100, 0, 7], 3, 5⟩)
        (AString.content ⟨Ptr.heap [97, 98, 99, 0], 3, 4⟩) = true) ∧
      (lt = true ↔ lexLt (AString.content ⟨Ptr.heap [97, 98, 99, 0], 3, 4⟩)
        (AString.content ⟨Ptr.heap [97, 98, 100, 0, 7], 3, 5⟩) = true) ∧
      (gt = true ↔ lt' = true) ∧
      (r = 0 ↔ AString.operatorEq ⟨Ptr.heap [97, 98, 99, 0], 3, 4⟩
        ⟨Ptr.heap [97, 98, 100, 0, 7], 3, 5⟩ = some true) :=
  ⟨by decide, by decide,
    compare_lex 64 ⟨Ptr.heap [97, 98, 99, 0], 3, 4⟩ ⟨Ptr.heap [97, 98, 100, 0, 7], 3, 5⟩
      (by decide) (by decide) (by decide) (by decide)⟩

theorem strlen_spec (rest : List Nat) :
    ∀ (c : List Nat), 0 ∉ c → strlen (c ++ 0 :: rest) = some c.length := by
  intro c
  induction c with
  | nil => intro _; simp [strlen]
  | cons x xs ih =>
    intro h
    have hx : x ≠ 0 := by
      intro e; apply h; rw [e]; exact List.mem_cons_self _ _
    have hxs : 0 ∉ xs := fun hm => h (List.mem_cons_of_mem _ hm)
    simp [strlen, hx, ih hxs]

/-- The search of `strstr` returns the least offset at which the needle stands,
and fails only when it stands nowhere. -/
theorem strstrAux_spec (nd : List Nat) :
    ∀ (hay : List Nat) (k : Nat),
      (∃ j, strstrAux nd hay k = some (k + j) ∧ j ≤ hay.length ∧
          (hay.drop j).take nd.length = nd ∧
          ∀ j', j' < j → (hay.drop j').take nd.length ≠ nd) ∨
      (strstrAux nd hay k = none ∧ ∀ j, (hay.drop j).take nd.length ≠ nd) := by
  intro hay
  induction hay with
  | nil =>
    intro k
    by_cases hn : nd = []
    · left
      exact ⟨0, by simp [strstrAux, hn], Nat.le_refl _, by simp [hn], by intro j' h; omega⟩
    · right
      refine ⟨by simp [strstrAux, hn], ?_⟩
      intro j h
      apply hn
      rw [← h]; simp
  | cons x xs ih =>
    intro k
    by_cases hp : (x :: xs).take nd.length = nd
    · left
      exact ⟨0, by simp [strstrAux, hp], Nat.zero_le _, by simpa using hp,
        by intro j' h; omega⟩
    · rcases ih (k + 1) with ⟨j, he, hj, hocc, hmin⟩ | ⟨he, hno⟩
      · left
        refine ⟨j + 1, ?_, by simp; omega, by simpa using hocc, ?_⟩
        · unfold strstrAux
          rw [if_neg hp, he]
          congr 1; omega
        · intro j' hj'
          cases j' with
          | zero => simpa using hp
          | succ i => simpa using hmin i (by omega)
      · right
        refine ⟨by unfold strstrAux; rw [if_neg hp, he], ?_⟩
        intro j
        cases j with
        | zero => simpa using hp
        | succ i => simpa using hno i

/-- What `find` returns on a well-formed buffer without zero bytes, for a
C-string needle and a start inside the content: `-1` when the needle stands
nowhere at or after `start`, and otherwise the least such offset. -/
theorem find_spec (w : Nat) (a : AString) (nd nrest : List Nat) (start : Nat) (ha : a.WF w)
    (hza : 0 ∉ a.content) (hzn : 0 ∉ nd) (hs : start ≤ a.mSize) :
    (∃ k : Nat, a.find (nd ++ 0 :: nrest) start = some (k : Int) ∧ start ≤ k ∧
        occursAt a.content nd k ∧
        ∀ k', start ≤ k' → occursAt a.content nd k' → k ≤ k') ∨
    (a.find (nd ++ 0 :: nrest) start = some (-1) ∧
        ∀ k, start ≤ k → ¬ occursAt a.content nd k) := by
  obtain ⟨rest, hm⟩ := wf_split ha
  have hcl := content_length ha
  have hdrop : (a.content ++ 0 :: rest).drop start = a.content.drop start ++ 0 :: rest := by
    rw [List.drop_append_of_le_length (by omega)]
  have hzd : 0 ∉ a.content.drop start := fun h => hza (List.mem_of_mem_drop h)
  have hlen : start ≤ (a.content ++ 0 :: rest).length := by
    rw [List.length_append, hcl]; omega
  have hstr : strstr ((a.content ++ 0 :: rest).drop start) (nd ++ 0 :: nrest)
      = some (strstrAux nd (a.content.drop start) 0) := by
    unfold strstr
    rw [hdrop, strlen_spec rest _ hzd, strlen_spec nrest _ hzn]
    simp
  have hfind : a.find (nd ++ 0 :: nrest) start
      = (match strstrAux nd (a.content.drop start) 0 with
        | none => some (-1)
        | some k => some ((start : Int) + (k : Int))) := by
    unfold AString.find
    rw [hm]
    simp only [Option.bind_eq_bind, Option.some_bind, if_pos hlen, hstr, Option.pure_def]
  rcases strstrAux_spec nd (a.content.drop start) 0 with ⟨j, he, hj, hocc, hmin⟩ | ⟨he, hno⟩
  · left
    rw [Nat.zero_add] at he
    rw [List.length_drop, hcl] at hj
    have hocc' : (a.content.drop (start + j)).take nd.length = nd := by
      have h := hocc
      rw [List.drop_drop] at h
      exact h
    have hfit : start + j + nd.length ≤ a.content.length := by
      have hl : ((a.content.drop (start + j)).take nd.length).length = nd.length := by
        rw [hocc']
      rw [List.length_take, List.length_drop] at hl
      omega
    refine ⟨start + j, ?_, by omega, ⟨hfit, hocc'⟩, ?_⟩
    · rw [hfind, he]; simp
    · intro k' hk' hk'occ
      by_contra hlt
      apply hmin (k' - start) (by omega)
      rw [List.drop_drop]
      have e : start + (k' - start) = k' := by omega
      rw [e]
      exact hk'occ.2
  · right
    refine ⟨by rw [hfind, he], ?_⟩
    intro k hk hkocc
    apply hno (k - start)
    rw [List.drop_drop]
    have e : start + (k - start) = k := by omega
    rw [e]
    exact hkocc.2

/-- C12: on a buffer whose content holds no zero byte, for a zero-free needle
(followed by its terminator) and `start ≤ size`, `find(needle, start)` returns a
result; it is `-1` exactly when the needle occurs at no offset `k ≥ start`, and
it is `k` exactly when `k` is the least offset `≥ start` at which the bytes of
the needle stand contiguously in the content. -/
theorem find_least (w : Nat) (a : AString) (nd nrest : List Nat) (start : Nat) (ha : a.WF w)
    (hza : 0 ∉ a.content) (hzn : 0 ∉ nd) (hs : start ≤ a.size) :
    ∃ r, a.find (nd ++ 0 :: nrest) start = some r ∧
      (r = -1 ↔ ¬ ∃ k, start ≤ k ∧ occursAt a.content nd k) ∧
      (∀ k : Nat, r = (k : Int) ↔
        (start ≤ k ∧ occursAt a.content nd k ∧
          ∀ k', start ≤ k' → occursAt a.content nd k' → k ≤ k')) := by
  rcases find_spec w a nd nrest start ha hza hzn hs with ⟨k, he, hk, hocc, hmin⟩ | ⟨he, hno⟩
  · refine ⟨(k : Int), he, ?_, ?_⟩
    · constructor
      · intro h; omega
      · intro h; exact absurd ⟨k, hk, hocc⟩ h
    · intro k2
      constructor
      · intro h
        have : k = k2 := by omega
        subst this
        exact ⟨hk, hocc, hmin⟩
      · intro h
        have h1 := hmin k2 h.1 h.2.1
        have h2 := h.2.2 k hk hocc
        omega
  · refine ⟨-1, he, ?_, ?_⟩
    · constructor
      · intro _ hex
        obtain ⟨k, hk, hocc⟩ := hex
        exact hno k hk hocc
      · intro _; rfl
    · intro k2
      constructor
      · intro h; omega
      · intro h; exact absurd h.2.1 (hno k2 h.1)

/-- Witness for C12: "World" in "Hello, World" from offset 0. -/
theorem find_least_witness :
    (AString.WF 64 ⟨Ptr.heap [72, 101, 108, 108, 111, 44, 32, 87, 111, 114, 108, 100, 0], 12, 13⟩ ∧
      0 ∉ AString.content
        ⟨Ptr.heap [72, 101, 108, 108, 111, 44, 32, 87, 111, 114, 108, 100, 0], 12, 13⟩ ∧
      0 ∉ [87, 111, 114, 108, 100] ∧
      0 ≤ AString.size
        ⟨Ptr.heap [72, 101, 108, 108, 111, 44, 32, 87, 111, 114, 108, 100, 0], 12, 13⟩) ∧
    AString.find ⟨Ptr.heap [72, 101, 108, 108, 111, 44, 32, 87, 111, 114, 108, 100, 0], 12, 13⟩
      ([87, 111, 114, 108, 100] ++ 0 :: []) 0 = some 7 ∧
    AString.find ⟨Ptr.heap [72, 101, 108, 108, 111, 44, 32, 87, 111, 114, 108, 100, 0], 12, 13⟩
      ([120, 121, 122] ++ 0 :: []) 0 = some (-1) ∧
    ∃ r, AString.find
        ⟨Ptr.heap [72, 101, 108, 108, 111, 44, 32, 87, 111, 114, 108, 100, 0], 12, 13⟩
        ([87, 111, 114, 108, 100] ++ 0 :: []) 0 = some r ∧
      (r = -1 ↔ ¬ ∃ k, 0 ≤ k ∧ occursAt (AString.content
        ⟨Ptr.heap [72, 101, 108, 108, 111, 44, 32, 87, 111, 114, 108, 100, 0], 12, 13⟩)
        [87, 111, 114, 108, 100] k) ∧
      (∀ k : Nat, r = (k : Int) ↔
        (0 ≤ k ∧ occursAt (AString.content
          ⟨Ptr.heap [72, 101, 108, 108, 111, 44, 32, 87, 111, 114, 108, 100, 0], 12, 13⟩)
          [87, 111, 114, 108, 100] k ∧
          ∀ k', 0 ≤ k' → occursAt (AString.content
            ⟨Ptr.heap [72, 101, 108, 108, 111, 44, 32, 87, 111, 114, 108, 100, 0], 12, 13⟩)
            [87, 111, 114, 108, 100] k' → k ≤ k')) :=
  ⟨by decide, by decide, by decide,
    find_least 64
      ⟨Ptr.heap [72, 101, 108, 108, 111, 44, 32, 87, 111, 114, 108, 100, 0], 12, 13⟩
      [87, 111, 114, 108, 100] [] 0 (by decide) (by decide) (by decide) (by decide)⟩

/-- `strncmp` of a terminated block against a zero-free needle, over the length
of the needle: zero exactly when the block starts with the needle. -/
theorem strncmp_spec (rest nrest : List Nat) :
    ∀ (p c : List Nat), 0 ∉ p →
      ∃ r, strncmp (c ++ 0 :: rest) (p ++ 0 :: nrest) p.length = some r ∧
        (r = 0 ↔ (c ++ 0 :: rest).take p.length = p) := by
  intro p
  induction p with
  | nil => intro c _; exact ⟨0, by simp [strncmp], by simp⟩
  | cons y ys ih =>
    intro c hp
    have hy : y ≠ 0 := by
      intro e; apply hp; rw [e]; exact List.mem_cons_self _ _
    have hys : 0 ∉ ys := fun hm => hp (List.mem_cons_of_mem _ hm)
    cases c with
    | nil =>
      have hy' : (0 : Nat) ≠ y := fun e => hy e.symm
      refine ⟨(0 : Int) - (y : Int), by simp [strncmp, hy'], ?_⟩
      simp only [List.nil_append, List.length_cons, List.take_succ_cons, List.cons.injEq, hy',
        false_and, iff_false]
      omega
    | cons x xs =>
      by_cases hxy : x = y
      · subst hxy
        obtain ⟨r, hr, hiff⟩ := ih xs hys
        refine ⟨r, by simp [strncmp, hy, hr], ?_⟩
        rw [hiff]
        simp
      · refine ⟨(x : Int) - (y : Int), by simp [strncmp, hxy], ?_⟩
        simp only [List.cons_append, List.length_cons, List.take_succ_cons, List.cons.injEq, hxy,
          false_and, iff_false]
        omega

/-- `strcmp` of a terminated block of the length of a zero-free needle against
that needle: zero exactly when the block is the needle. -/
theorem strcmp_eq_spec (rest nrest : List Nat) :
    ∀ (p t : List Nat), 0 ∉ p → t.length = p.length →
      ∃ r, strcmp (t ++ 0 :: rest) (p ++ 0 :: nrest) = some r ∧ (r = 0 ↔ t = p) := by
  intro p
  induction p with
  | nil =>
    intro t _ ht
    have : t = [] := List.eq_nil_of_length_eq_zero ht
    subst this
    exact ⟨0, by simp [strcmp], by simp⟩
  | cons y ys ih =>
    intro t hp ht
    have hy : y ≠ 0 := by
      intro e; apply hp; rw [e]; exact List.mem_cons_self _ _
    have hys : 0 ∉ ys := fun hm => hp (List.mem_cons_of_mem _ hm)
    cases t with
    | nil => simp at ht
    | cons x xs =>
      simp only [List.length_cons, Nat.add_right_cancel_iff] at ht
      by_cases hxy : x = y
      · subst hxy
        obtain ⟨r, hr, hiff⟩ := ih xs hys ht
        refine ⟨r, by simp [strcmp, hy, hr], ?_⟩
        rw [hiff]
        simp
      · refine ⟨(x : Int) - (y : Int), by simp [strcmp, hxy], ?_⟩
        simp only [List.cons.injEq, hxy, false_and, iff_false]
        omega

theorem take_append_zero_iff (c rest p : List Nat) (hp : 0 ∉ p) :
    (c ++ 0 :: rest).take p.length = p ↔ p.length ≤ c.length ∧ c.take p.length = p := by
  constructor
  · intro h
    have hle : p.length ≤ c.length := by
      by_contra hlt
      apply hp
      rw [← h]
      apply List.getElem?_mem
      show (List.take p.length (c ++ 0 :: rest))[c.length]? = some 0
      rw [List.getElem?_take, if_pos (by omega), List.getElem?_append, if_neg (by omega)]
      simp
    refine ⟨hle, ?_⟩
    rw [List.take_append_of_le_length hle] at h
    exact h
  · intro h
    rw [List.take_append_of_le_length h.1]
    exact h.2

/-- C13: for any buffer (zero bytes inside the content allowed) and any zero-free
needle `p` followed by its terminator, `startsWith(p)` is true if and only if
`len p ≤ size` and the first `len p` bytes of the content are `p`, and
`endsWith(p)` is true if and only if `len p ≤ size` and the last `len p` bytes
of the content are `p`. -/
theorem startsWith_endsWith_iff (w : Nat) (a : AString) (p nrest : List Nat) (ha : a.WF w)
    (hp : 0 ∉ p) :
    ∃ s e, a.startsWith (p ++ 0 :: nrest) = some s ∧ a.endsWith (p ++ 0 :: nrest) = some e ∧
      (s = true ↔ p.length ≤ a.size ∧ a.content.take p.length = p) ∧
      (e = true ↔ p.length ≤ a.size ∧ a.content.drop (a.size - p.length) = p) := by
  obtain ⟨rest, hm⟩ := wf_split ha
  have hcl := content_length ha
  have hsl := strlen_spec nrest p hp
  obtain ⟨r1, hr1, hiff1⟩ := strncmp_spec rest nrest p a.content hp
  have hs : a.startsWith (p ++ 0 :: nrest) = some (r1 == 0) := by
    simp only [AString.startsWith, hsl, hm, hr1, Option.bind_eq_bind, Option.some_bind,
      Option.pure_def]
  by_cases hlt : a.mSize < p.length
  · have he : a.endsWith (p ++ 0 :: nrest) = some false := by
      simp only [AString.endsWith, hsl, Option.bind_eq_bind, Option.some_bind, if_pos hlt,
        Option.pure_def]
    refine ⟨r1 == 0, false, hs, he, ?_, ?_⟩
    · rw [beq_iff_eq, hiff1, take_append_zero_iff _ _ _ hp, hcl]; rfl
    · constructor
      · intro h; cases h
      · intro h
        have : p.length ≤ a.mSize := h.1
        omega
  · have hdrop : (a.content ++ 0 :: rest).drop (a.mSize - p.length)
        = a.content.drop (a.mSize - p.length) ++ 0 :: rest := by
      rw [List.drop_append_of_le_length (by omega)]
    have htl : (a.content.drop (a.mSize - p.length)).length = p.length := by
      rw [List.length_drop, hcl]; omega
    obtain ⟨r2, hr2, hiff2⟩ :=
      strcmp_eq_spec rest nrest p (a.content.drop (a.mSize - p.length)) hp htl
    have he : a.endsWith (p ++ 0 :: nrest) = some (r2 == 0) := by
      simp only [AString.endsWith, hsl, Option.bind_eq_bind, Option.some_bind, if_neg hlt, hm,
        hdrop, hr2, Option.pure_def]
    refine ⟨r1 == 0, r2 == 0, hs, he, ?_, ?_⟩
    · rw [beq_iff_eq, hiff1, take_append_zero_iff _ _ _ hp, hcl]; rfl
    · rw [beq_iff_eq, hiff2]
      constructor
      · intro h
        exact ⟨by show p.length ≤ a.mSize; omega, h⟩
      · intro h; exact h.2

/-- Witness for C13: the buffer `a`, zero, `b`, `c` against the needle "bc". -/
theorem startsWith_endsWith_iff_witness :
    (AString.WF 64 ⟨Ptr.heap [97, 0, 98, 99, 0], 4, 5⟩ ∧ 0 ∉ [98, 99]) ∧
    AString.startsWith ⟨Ptr.heap [97, 0, 98, 99, 0], 4, 5⟩ ([98, 99] ++ 0 :: []) = some false ∧
    AString.endsWith ⟨Ptr.heap [97, 0, 98, 99, 0], 4, 5⟩ ([98, 99] ++ 0 :: []) = some true ∧
    ∃ s e, AString.startsWith ⟨Ptr.heap [97, 0, 98, 99, 0], 4, 5⟩ ([98, 99] ++ 0 :: []) = some s ∧
      AString.endsWith ⟨Ptr.heap [97, 0, 98, 99, 0], 4, 5⟩ ([98, 99] ++ 0 :: []) = some e ∧
      (s = true ↔ [98, 99].length ≤ AString.size ⟨Ptr.heap [97, 0, 98, 99, 0], 4, 5⟩ ∧
        (AString.content ⟨Ptr.heap [97, 0, 98, 99, 0], 4, 5⟩).take [98, 99].length = [98, 99]) ∧
      (e = true ↔ [98, 99].length ≤ AString.size ⟨Ptr.heap [97, 0, 98, 99, 0], 4, 5⟩ ∧
        (AString.content ⟨Ptr.heap [97, 0, 98, 99, 0], 4, 5⟩).drop
          (AString.size ⟨Ptr.heap [97, 0, 98, 99, 0], 4, 5⟩ - [98, 99].length) = [98, 99]) :=
  ⟨by decide, by decide, by decide,
    startsWith_endsWith_iff 64 ⟨Ptr.heap [97, 0, 98, 99, 0], 4, 5⟩ [98, 99] []
      (by decide) (by decide)⟩

/-- C14: whatever the state, after `clear()` the buffer is the one the default
constructor builds: `size()` is 0, `empty()` is true, the data pointer is the
shared empty constant (whose bytes are just the terminator), the content is
empty and the recorded capacity is 1. -/
theorem clear_eq_default (a : AString) :
    a.clear = AString.mk0 ∧ a.clear.size = 0 ∧ a.clear.empty = true ∧
      a.clear.content = [] ∧ a.clear.c_str = Ptr.kEmptyString ∧
      a.clear.c_str.mem = some [0] ∧ a.clear.byteAt 0 = some 0 ∧ a.clear.mAllocSize = 1 := by
  have h : a.clear = AString.mk0 := by
    obtain ⟨p, m, c⟩ := a
    cases p <;> simp [AString.clear, AString.mk0]
  rw [h]
  exact ⟨rfl, rfl, rfl, rfl, rfl, rfl, rfl, rfl⟩

/-- C17 fails as stated: on the buffer the constructor builds from
"Hello, World", `insert("XX", 0, 5)` inserts no byte and leaves "Hello, World",
not "HelloXX, World". -/
theorem insert_zero_count_counterexample :
    ((AString.mkOfBytes 64 (fun _ => 0)
        (some [72, 101, 108, 108, 111, 44, 32, 87, 111, 114, 108, 100]) 12).bind
      (fun a => a.insert 64 (fun _ => 0) (Source.outside [88, 88]) 0 5)).map AString.content
      = some [72, 101, 108, 108, 111, 44, 32, 87, 111, 114, 108, 100] ∧
    ((AString.mkOfBytes 64 (fun _ => 0)
        (some [72, 101, 108, 108, 111, 44, 32, 87, 111, 114, 108, 100]) 12).bind
      (fun a => a.insert 64 (fun _ => 0) (Source.outside [88, 88]) 0 5)).map AString.content
      ≠ some [72, 101, 108, 108, 111, 88, 88, 44, 32, 87, 111, 114, 108, 100] := by
  decide

/-- C17 as amended: on any buffer holding "Hello, World",
`insert(bytes = "XX", n = 0, pos = 5)` succeeds and leaves the buffer holding
"Hello, World", since no byte is inserted; it is `insert("XX", 2, 5)` that
leaves "HelloXX, World". -/
theorem insert_zero_count (w : Nat) (junk : Nat → Nat) (a : AString) (hw : 5 ≤ w)
    (hwf : a.WF w) (hc : a.content = [72, 101, 108, 108, 111, 44, 32, 87, 111, 114, 108, 100])
    (hov : a.mAllocSize + 33 < 2 ^ w) :
    (∃ r, a.insert w junk (Source.outside [88, 88]) 0 5 = some r ∧
      r.content = [72, 101, 108, 108, 111, 44, 32, 87, 111, 114, 108, 100] ∧ r.size = 12) ∧
    (∃ r, a.insert w junk (Source.outside [88, 88]) 2 5 = some r ∧
      r.content = [72, 101, 108, 108, 111, 88, 88, 44, 32, 87, 111, 114, 108, 100] ∧
      r.size = 14) := by
  have hm : a.mSize = 12 := by
    rw [← content_length hwf, hc]; rfl
  constructor
  · obtain ⟨buf, he, ht, -⟩ :=
      insert_spec w junk a [88, 88] 0 5 hw hwf (by decide) (by omega) (by omega)
    refine ⟨_, he, ?_, ?_⟩
    · rw [content_heap, ht, hc]; rfl
    · show a.mSize + 0 = 12
      omega
  · obtain ⟨buf, he, ht, -⟩ :=
      insert_spec w junk a [88, 88] 2 5 hw hwf (by decide) (by omega) (by omega)
    refine ⟨_, he, ?_, ?_⟩
    · rw [content_heap, ht, hc]; rfl
    · show a.mSize + 2 = 14
      omega

/-- Witness for the amended C17. -/
theorem insert_zero_count_witness :
    (5 ≤ 64 ∧
      AString.WF 64 ⟨Ptr.heap [72, 101, 108, 108, 111, 44, 32, 87, 111, 114, 108, 100, 0], 12, 13⟩ ∧
      AString.content
        ⟨Ptr.heap [72, 101, 108, 108, 111, 44, 32, 87, 111, 114, 108, 100, 0], 12, 13⟩
        = [72, 101, 108, 108, 111, 44, 32, 87, 111, 114, 108, 100] ∧
      AString.mAllocSize
        ⟨Ptr.heap [72, 101, 108, 108, 111, 44, 32, 87, 111, 114, 108, 100, 0], 12, 13⟩ + 33
        < 2 ^ 64) ∧
    ((∃ r, AString.insert 64 (fun _ => 0)
        ⟨Ptr.heap [72, 101, 108, 108, 111, 44, 32, 87, 111, 114, 108, 100, 0], 12, 13⟩
        (Source.outside [88, 88]) 0 5 = some r ∧
      r.content = [72, 101, 108, 108, 111, 44, 32, 87, 111, 114, 108, 100] ∧ r.size = 12) ∧
    (∃ r, AString.insert 64 (fun _ => 0)
        ⟨Ptr.heap [72, 101, 108, 108, 111, 44, 32, 87, 111, 114, 108, 100, 0], 12, 13⟩
        (Source.outside [88, 88]) 2 5 = some r ∧
      r.content = [72, 101, 108, 108, 111, 88, 88, 44, 32, 87, 111, 114, 108, 100] ∧
      r.size = 14)) :=
  ⟨by decide, insert_zero_count 64 (fun _ => 0)
    ⟨Ptr.heap [72, 101, 108, 108, 111, 44, 32, 87, 111, 114, 108, 100, 0], 12, 13⟩
    (by decide) (by decide) (by decide) (by decide)⟩

/-- C20: the buffers built with explicit length 3 from `a`, zero, `b` and from
`a`, zero, `c` each hold a zero byte inside their content; `==` on them is
false while `compare` is 0, so none of `a < b`, `a > b`, `a == b` holds. -/
theorem eq_compare_disagree :
    ∃ a b, AString.mkOfBytes 64 (fun _ => 170) (some [97, 0, 98]) 3 = some a ∧
      AString.mkOfBytes 64 (fun _ => 170) (some [97, 0, 99]) 3 = some b ∧
      a.size = 3 ∧ b.size = 3 ∧ 0 ∈ a.content ∧ 0 ∈ b.content ∧
      a.operatorEq b = some false ∧ a.compare b = some 0 ∧
      a.operatorLt b = some false ∧ a.operatorGt b = some false := by
  refine ⟨⟨Ptr.heap ([97, 0, 98, 0] ++ List.replicate 28 170), 3, 32⟩,
    ⟨Ptr.heap ([97, 0, 99, 0] ++ List.replicate 28 170), 3, 32⟩, ?_⟩
  decide

theorem wf_alloc {w : Nat} {a : AString} (h : a.WF w) (hw : 0 < w) :
    a.mSize + 1 ≤ a.mAllocSize ∧ a.mAllocSize < 2 ^ w := by
  obtain ⟨B, -, hlen, hcap, -, hlt, -⟩ := makeMutable_heap h hw
  omega

/-- C19: on a buffer with `capacity ≥ size + 1`, when no `size_t` sum
overflows, `append` and `insert` of `n` bytes succeed and set the same capacity:
it is unchanged when `size + n + 1 ≤ capacity`, and otherwise it is
`(capacity + n + 31) & -32`, the smallest multiple of 32 that is
`≥ capacity + n`.  The new capacity is never smaller than the old one, it is
`≥ size + n + 1`, and the existing content is preserved; an `insert` that
reads its bytes from any other source, the storage of the buffer included,
sets the same capacity and preserves the existing content whenever it is
defined. -/
theorem capacity_growth (w : Nat) (junk : Nat → Nat) (a : AString) (s frm : List Nat)
    (n pos : Nat) (hw : 5 ≤ w) (hwf : a.WF w) (hs : n ≤ s.length) (hf : n ≤ frm.length)
    (hp : pos ≤ a.size) (hov : a.mAllocSize + n + 31 < 2 ^ w) :
    ∃ r1 r2, a.append w junk s n = some r1 ∧
      a.insert w junk (Source.outside frm) n pos = some r2 ∧
      r2.mAllocSize = r1.mAllocSize ∧
      (a.size + n + 1 ≤ a.mAllocSize → r1.mAllocSize = a.mAllocSize) ∧
      (¬ a.size + n + 1 ≤ a.mAllocSize →
        r1.mAllocSize = (a.mAllocSize + n + 31) &&& negThirtyTwo w ∧
        32 ∣ r1.mAllocSize ∧ a.mAllocSize + n ≤ r1.mAllocSize ∧
        ∀ k, 32 ∣ k → a.mAllocSize + n ≤ k → r1.mAllocSize ≤ k) ∧
      a.mAllocSize ≤ r1.mAllocSize ∧ a.size + n + 1 ≤ r1.mAllocSize ∧
      r1.content.take a.size = a.content ∧
      r2.content.take pos = a.content.take pos ∧
      r2.content.drop (pos + n) = a.content.drop pos ∧
      (∀ (src : Source) (r : AString), a.insert w junk src n pos = some r →
        r.mAllocSize = r1.mAllocSize ∧ r.content.take pos = a.content.take pos ∧
        r.content.drop (pos + n) = a.content.drop pos) := by
  obtain ⟨b1, he1, ht1, -, hr1, -, hn1⟩ := append_spec w junk a s n hw hwf hs hov
  obtain ⟨b2, he2, ht2, -, -, -, hn2⟩ := insert_spec w junk a frm n pos hw hwf hf hp hov
  have hcl := content_length hwf
  have hal := wf_alloc hwf (show 0 < w by omega)
  have hp' : pos ≤ a.mSize := hp
  have hmask := land_negThirtyTwo w (a.mAllocSize + n + 31) hw hov
  refine ⟨_, _, he1, he2, ?_, ?_, ?_, ?_, ?_, ?_, ?_, ?_, ?_⟩
  · show b2.length = b1.length
    rw [hn1, hn2]
  · intro h
    have h' : a.mSize + n + 1 ≤ a.mAllocSize := h
    show b1.length = a.mAllocSize
    rw [hn1, if_pos h']
  · intro h
    have h' : ¬ a.mSize + n + 1 ≤ a.mAllocSize := h
    have hb : b1.length = (a.mAllocSize + n + 31) / 32 * 32 := by
      rw [hn1, if_neg h']
    refine ⟨?_, ?_, ?_, ?_⟩
    · show b1.length = _
      rw [hb, hmask]
    · show 32 ∣ b1.length
      rw [hb]; exact Nat.dvd_mul_left _ _
    · show a.mAllocSize + n ≤ b1.length
      omega
    · intro k hk1 hk2
      show b1.length ≤ k
      omega
  · show a.mAllocSize ≤ b1.length
    rw [hn1]; split <;> omega
  · show a.mSize + n + 1 ≤ b1.length
    exact hr1
  · rw [content_heap, ht1]
    show List.take a.mSize (a.content ++ List.take n s) = a.content
    exact List.take_left' hcl
  · rw [content_heap, ht2, List.append_assoc]
    apply List.take_left'
    rw [List.length_take, hcl]; omega
  · rw [content_heap, ht2]
    apply List.drop_left'
    rw [List.length_append, List.length_take, List.length_take, hcl]
    omega
  · intro src r h
    obtain ⟨y, hy, hins⟩ := insert_eq_outside w junk a src n pos r h
    obtain ⟨b3, he3, ht3, -, -, -, hn3⟩ :=
      insert_spec w junk a y n pos hw hwf (by omega) hp hov
    rw [he3] at hins
    cases hins
    refine ⟨?_, ?_, ?_⟩
    · show b3.length = b1.length
      rw [hn1, hn3]
    · rw [content_heap, ht3, List.append_assoc]
      apply List.take_left'
      rw [List.length_take, hcl]; omega
    · rw [content_heap, ht3]
      apply List.drop_left'
      rw [List.length_append, List.length_take, List.length_take, hcl]
      omega

/-- Witness for C19: five more bytes on a full four-byte block. -/
theorem capacity_growth_witness :
    (5 ≤ 64 ∧ AString.WF 64 ⟨Ptr.heap [72, 105, 33, 0], 3, 4⟩ ∧
      5 ≤ [1, 2, 3, 4, 5].length ∧ 5 ≤ [6, 7, 8, 9, 10].length ∧
      1 ≤ AString.size ⟨Ptr.heap [72, 105, 33, 0], 3, 4⟩ ∧
      AString.mAllocSize ⟨Ptr.heap [72, 105, 33, 0], 3, 4⟩ + 5 + 31 < 2 ^ 64) ∧
    (AString.append 64 (fun _ => 0) ⟨Ptr.heap [72, 105, 33, 0], 3, 4⟩ [1, 2, 3, 4, 5] 5).map
      AString.mAllocSize = some 32 ∧
    ∃ r1 r2,
      AString.append 64 (fun _ => 0) ⟨Ptr.heap [72, 105, 33, 0], 3, 4⟩ [1, 2, 3, 4, 5] 5
        = some r1 ∧
      AString.insert 64 (fun _ => 0) ⟨Ptr.heap [72, 105, 33, 0], 3, 4⟩
          (Source.outside [6, 7, 8, 9, 10]) 5 1
        = some r2 ∧
      r2.mAllocSize = r1.mAllocSize ∧
      (AString.size ⟨Ptr.heap [72, 105, 33, 0], 3, 4⟩ + 5 + 1
          ≤ AString.mAllocSize ⟨Ptr.heap [72, 105, 33, 0], 3, 4⟩ →
        r1.mAllocSize = AString.mAllocSize ⟨Ptr.heap [72, 105, 33, 0], 3, 4⟩) ∧
      (¬ AString.size ⟨Ptr.heap [72, 105, 33, 0], 3, 4⟩ + 5 + 1
          ≤ AString.mAllocSize ⟨Ptr.heap [72, 105, 33, 0], 3, 4⟩ →
        r1.mAllocSize
          = (AString.mAllocSize ⟨Ptr.heap [72, 105, 33, 0], 3, 4⟩ + 5 + 31) &&& negThirtyTwo 64 ∧
        32 ∣ r1.mAllocSize ∧
        AString.mAllocSize ⟨Ptr.heap [72, 105, 33, 0], 3, 4⟩ + 5 ≤ r1.mAllocSize ∧
        ∀ k, 32 ∣ k → AString.mAllocSize ⟨Ptr.heap [72, 105, 33, 0], 3, 4⟩ + 5 ≤ k →
          r1.mAllocSize ≤ k) ∧
      AString.mAllocSize ⟨Ptr.heap [72, 105, 33, 0], 3, 4⟩ ≤ r1.mAllocSize ∧
      AString.size ⟨Ptr.heap [72, 105, 33, 0], 3, 4⟩ + 5 + 1 ≤ r1.mAllocSize ∧
      r1.content.take (AString.size ⟨Ptr.heap [72, 105, 33, 0], 3, 4⟩)
        = AString.content ⟨Ptr.heap [72, 105, 33, 0], 3, 4⟩ ∧
      r2.content.take 1 = (AString.content ⟨Ptr.heap [72, 105, 33, 0], 3, 4⟩).take 1 ∧
      r2.content.drop (1 + 5) = (AString.content ⟨Ptr.heap [72, 105, 33, 0], 3, 4⟩).drop 1 ∧
      (∀ (src : Source) (r : AString),
        AString.insert 64 (fun _ => 0) ⟨Ptr.heap [72, 105, 33, 0], 3, 4⟩ src 5 1 = some r →
        r.mAllocSize = r1.mAllocSize ∧
        r.content.take 1 = (AString.content ⟨Ptr.heap [72, 105, 33, 0], 3, 4⟩).take 1 ∧
        r.content.drop (1 + 5) = (AString.content ⟨Ptr.heap [72, 105, 33, 0], 3, 4⟩).drop 1) :=
  ⟨by decide, by decide,
    capacity_growth 64 (fun _ => 0) ⟨Ptr.heap [72, 105, 33, 0], 3, 4⟩ [1, 2, 3, 4, 5]
      [6, 7, 8, 9, 10] 5 1 (by decide) (by decide) (by decide) (by decide) (by decide)
      (by decide)⟩

theorem memmove_inv {B B1 : List Nat} {d s n : Nat} (h : memmove B d s n = some B1) :
    d + n ≤ B.length ∧ s + n ≤ B.length := by
  unfold memmove at h
  split at h
  · rename_i hc; exact hc
  · cases h

theorem store_inv {B B2 : List Nat} {i v : Nat} (h : store B i v = some B2) :
    i < B.length ∧ B2 = B.set i v := by
  unfold store at h
  split at h
  · rename_i hc
    cases h
    exact ⟨hc, rfl⟩
  · cases h

/-- The growth step on a heap block always yields a heap block whose recorded
capacity is its length; the bytes present in both blocks are the same. -/
theorem grow_shape (w : Nat) (junk : Nat → Nat) (B : List Nat) (m size : Nat)
    (hB : B.length < 2 ^ w) :
    ∃ B', AString.grow w junk ⟨Ptr.heap B, m, B.length⟩ size
        = some ⟨Ptr.heap B', m, B'.length⟩ ∧ B'.length < 2 ^ w ∧
      ∀ (k : Nat), k < B.length → k < B'.length → B'[k]? = B[k]? := by
  unfold AString.grow
  by_cases hc : addSz w (addSz w m size) 1 > B.length
  · rw [if_pos hc]
    have hn : (addSz w (addSz w B.length size) 31 &&& negThirtyTwo w) < 2 ^ w := by
      apply Nat.lt_of_le_of_lt Nat.and_le_left
      unfold addSz
      exact Nat.mod_lt _ (Nat.pos_of_ne_zero (by positivity))
    generalize (addSz w (addSz w B.length size) 31 &&& negThirtyTwo w) = n at hn
    have hl : (List.take n B ++ List.map (fun i => junk (B.length + i))
        (List.range (n - B.length))).length = n := by
      simp only [List.length_append, List.length_take, List.length_map, List.length_range]
      omega
    refine ⟨List.take n B ++ List.map (fun i => junk (B.length + i))
        (List.range (n - B.length)), ?_, by rw [hl]; exact hn, ?_⟩
    · simp only [realloc, Option.bind_eq_bind, Option.some_bind, Option.pure_def, hl]
    · intro k hk1 hk2
      rw [hl] at hk2
      rw [List.getElem?_append, List.length_take, if_pos (by omega), List.getElem?_take,
        if_pos hk2]
  · rw [if_neg hc]
    exact ⟨B, rfl, hB, fun _ _ _ => rfl⟩

/-- A successful `append` keeps the class invariant. -/
theorem append_wf (w : Nat) (junk : Nat → Nat) (a : AString) (s : List Nat) (size : Nat)
    (r : AString) (hw : 0 < w) (hwf : a.WF w) (h : a.append w junk s size = some r) :
    r.WF w := by
  obtain ⟨B, hm, -, hcap, -, hlt, -⟩ := makeMutable_heap hwf hw
  obtain ⟨B', hg, hlt', -⟩ := grow_shape w junk B a.mSize size hlt
  simp only [AString.append, hm, hg, Option.bind_eq_bind, Option.some_bind, Ptr.heapBuf,
    Option.pure_def] at h
  cases h1 : memcpy B' a.mSize s size with
  | none => rw [h1] at h; simp at h
  | some B1 =>
    rw [h1, Option.some_bind] at h
    cases h2 : store B1 (addSz w a.mSize size) 0 with
    | none => rw [h2] at h; simp at h
    | some B2 =>
      rw [h2, Option.some_bind] at h
      cases h
      obtain ⟨-, -, hl1⟩ := memcpy_inv h1
      obtain ⟨hi, hset⟩ := store_inv h2
      subst hset
      simp only [AString.WF, List.length_set]
      refine ⟨hl1, by omega, List.getElem?_set_self hi, hlt'⟩

/-- A successful `insert` of bytes from outside the storage, at a position
inside the content, keeps the class invariant. -/
theorem insert_outside_wf (w : Nat) (junk : Nat → Nat) (a : AString) (frm : List Nat)
    (size pos : Nat) (r : AString) (hw : 0 < w) (hwf : a.WF w) (hp : pos ≤ a.mSize)
    (h : a.insert w junk (Source.outside frm) size pos = some r) : r.WF w := by
  obtain ⟨B, hm, -, hcap, hterm, hlt, -⟩ := makeMutable_heap hwf hw
  obtain ⟨B', hg, hlt', hsame⟩ := grow_shape w junk B a.mSize size hlt
  have e3 : subSz w a.mSize pos = a.mSize - pos := subSz_of_le hp (by omega)
  have e4 : addSz w (a.mSize - pos) 1 = a.mSize - pos + 1 := addSz_of_lt (by omega)
  simp only [AString.insert, insertCopy, hm, hg, Option.bind_eq_bind, Option.some_bind,
    Ptr.heapBuf, Option.pure_def, e3, e4] at h
  cases h1 : memmove B' (addSz w pos size) pos (a.mSize - pos + 1) with
  | none => rw [h1] at h; simp at h
  | some B1 =>
    rw [h1, Option.some_bind] at h
    cases h2 : memcpy B1 pos frm size with
    | none => rw [h2] at h; simp at h
    | some B2 =>
      rw [h2, Option.some_bind] at h
      cases h
      obtain ⟨hmv, -⟩ := memmove_inv h1
      have hl1 : B1.length = B'.length := by
        unfold memmove at h1
        split at h1
        · cases h1
          simp only [List.length_append, List.length_take, List.length_drop]
          omega
        · cases h1
      obtain ⟨hcp, hfs, hl2⟩ := memcpy_inv h2
      have e1 : addSz w pos size = pos + size := addSz_of_lt (by omega)
      rw [e1] at h1 hmv
      have e2 : addSz w a.mSize size = a.mSize + size := addSz_of_lt (by omega)
      obtain ⟨B2', hB2', hl, -, hz⟩ :=
        insert_bytes B' frm a.mSize size pos (by omega) hp hfs
      rw [h1, Option.some_bind, h2] at hB2'
      cases hB2'
      simp only [AString.WF, e2]
      refine ⟨hl, by omega, ?_, hlt'⟩
      rw [hz, hsame a.mSize (by omega) (by omega)]
      exact hterm

/-- A successful `insert` at a position inside the content keeps the class
invariant, wherever the source pointer points. -/
theorem insert_wf (w : Nat) (junk : Nat → Nat) (a : AString) (frm : Source) (size pos : Nat)
    (r : AString) (hw : 0 < w) (hwf : a.WF w) (hp : pos ≤ a.mSize)
    (h : a.insert w junk frm size pos = some r) : r.WF w := by
  obtain ⟨x, -, hx⟩ := insert_eq_outside w junk a frm size pos r h
  exact insert_outside_wf w junk a x size pos r hw hwf hp hx

theorem erase_wf (w : Nat) (a : AString) (start n : Nat) (r : AString) (hw : 5 ≤ w)
    (hwf : a.WF w) (hp : start + n ≤ a.mSize) (h : a.erase w start n = some r) : r.WF w := by
  obtain ⟨buf, he, -, hz, hl⟩ := erase_spec w a start n hw hwf hp
  have hal := wf_alloc hwf (show 0 < w by omega)
  rw [he] at h
  cases h
  exact wf_heap w buf (a.mSize - n) (by omega) hz (by omega)

theorem trim_wf (w : Nat) (sc : Bool) (a r : AString) (hw : 5 ≤ w) (hwf : a.WF w)
    (h : a.trim w sc = some r) : r.WF w := by
  obtain ⟨B2, i, j, he, hij, hjm, hl, -, hz, -⟩ := trim_spec w sc a hw hwf
  have hal := wf_alloc hwf (show 0 < w by omega)
  rw [he] at h
  cases h
  exact wf_heap w B2 (j - i) (by omega) hz (by omega)

theorem tolower_wf (w : Nat) (sc : Bool) (a r : AString) (hw : 0 < w) (hwf : a.WF w)
    (h : a.tolower sc = some r) : r.WF w := by
  obtain ⟨B, hm, hlen, hcap, hterm, hlt, -⟩ := makeMutable_heap hwf hw
  obtain ⟨B', he, hl, hk⟩ := tolower_heap sc B a.mSize B.length (by omega)
  have hmm : AString.makeMutable ⟨Ptr.heap B, a.mSize, B.length⟩
      = ⟨Ptr.heap B, a.mSize, B.length⟩ := by
    simp [AString.makeMutable]
  have he' : a.tolower sc = some ⟨Ptr.heap B', a.mSize, B.length⟩ := by
    rw [← he]
    simp only [AString.tolower, hm, hmm]
  rw [he'] at h
  cases h
  simp only [AString.WF]
  refine ⟨hl, hcap, ?_, hlt⟩
  rw [hk a.mSize, if_neg (Nat.lt_irrefl _)]
  exact hterm

theorem clear_wf (w : Nat) (a : AString) : a.clear.WF w := by
  obtain ⟨p, m, c⟩ := a
  exact wf_cleared w p m c

theorem mkOfBytes_wf (w : Nat) (junk : Nat → Nat) (s : Option (List Nat)) (size : Nat)
    (r : AString) (hw : 0 < w) (h : AString.mkOfBytes w junk s size = some r) : r.WF w := by
  cases s with
  | none =>
    have e : AString.mkOfBytes w junk none size = some (AString.clear ⟨Ptr.null, 0, 1⟩) := rfl
    rw [e] at h
    cases h
    exact clear_wf w _
  | some bytes =>
    have e : AString.mkOfBytes w junk (some bytes) size
        = (AString.clear ⟨Ptr.null, 0, 1⟩).append w junk bytes size := rfl
    rw [e] at h
    exact append_wf w junk _ bytes size r hw (clear_wf w _) h

/-- C18: every state reachable from a constructor by `append`, `insert`,
`erase`, `trim`, `tolower`, `setTo` and `clear` calls that meet their
preconditions satisfies `capacity ≥ size + 1` and `data[size] == 0` (and the
rest of the class invariant). -/
theorem reachable_invariant (w : Nat) (hw : 5 ≤ w) (a : AString) (h : Reachable w a) :
    a.mAllocSize ≥ a.size + 1 ∧ a.byteAt a.size = some 0 ∧ a.WF w := by
  have hw0 : 0 < w := by omega
  have hwf : a.WF w := by
    induction h with
    | default => exact wf_mk0 w
    | ofBytes junk s size r h => exact mkOfBytes_wf w junk s size r hw0 h
    | append junk a s size r _ h ih => exact append_wf w junk a s size r hw0 ih h
    | insert junk a frm size pos r _ hp h ih =>
      exact insert_wf w junk a frm size pos r hw0 ih hp h
    | erase a start n r _ hp h ih => exact erase_wf w a start n r hw ih hp h
    | trim sc a r _ h ih => exact trim_wf w sc a r hw ih h
    | tolower sc a r _ h ih => exact tolower_wf w sc a r hw0 ih h
    | setTo junk a s size r _ h ih =>
      exact append_wf w junk a.clear s size r hw0 (clear_wf w a) h
    | clear a _ _ => exact clear_wf w a
  exact ⟨(wf_alloc hwf hw0).1, byteAt_size hwf, hwf⟩

/-- Witness for C18: the state after constructing from "Hi", inserting "XX" at
position 1, trimming and erasing one byte. -/
theorem reachable_invariant_witness :
    (5 ≤ 64 ∧ Reachable 64 ⟨Ptr.heap ([72, 88, 105, 0, 0] ++ List.replicate 27 0), 3, 32⟩) ∧
    (AString.mAllocSize ⟨Ptr.heap ([72, 88, 105, 0, 0] ++ List.replicate 27 0), 3, 32⟩
        ≥ AString.size ⟨Ptr.heap ([72, 88, 105, 0, 0] ++ List.replicate 27 0), 3, 32⟩ + 1 ∧
      AString.byteAt ⟨Ptr.heap ([72, 88, 105, 0, 0] ++ List.replicate 27 0), 3, 32⟩
        (AString.size ⟨Ptr.heap ([72, 88, 105, 0, 0] ++ List.replicate 27 0), 3, 32⟩)
        = some 0 ∧
      AString.WF 64 ⟨Ptr.heap ([72, 88, 105, 0, 0] ++ List.replicate 27 0), 3, 32⟩) :=
  have hr : Reachable 64 ⟨Ptr.heap ([72, 88, 105, 0, 0] ++ List.replicate 27 0), 3, 32⟩ :=
    Reachable.erase ⟨Ptr.heap ([72, 88, 88, 105, 0] ++ List.replicate 27 0), 4, 32⟩ 1 1 _
      (Reachable.trim true ⟨Ptr.heap ([72, 88, 88, 105, 0] ++ List.replicate 27 0), 4, 32⟩ _
        (Reachable.insert (fun _ => 0)
          ⟨Ptr.heap ([72, 105, 0] ++ List.replicate 29 0), 2, 32⟩ (Source.outside [88, 88]) 2 1 _
          (Reachable.ofBytes (fun _ => 0) (some [72, 105]) 2 _ (by decide))
          (by decide) (by decide))
        (by decide))
      (by decide) (by decide)
  ⟨⟨by decide, hr⟩, reachable_invariant 64 (by decide) _ hr⟩

theorem decDigits_range : ∀ (f n b : Nat), b ∈ decDigits f n → 48 ≤ b ∧ b ≤ 57 := by
  intro f
  induction f with
  | zero => intro n b h; simp [decDigits] at h
  | succ f ih =>
    intro n b h
    unfold decDigits at h
    by_cases hn : n < 10
    · rw [if_pos hn] at h
      simp only [List.mem_singleton] at h
      omega
    · rw [if_neg hn] at h
      rcases List.mem_append.1 h with h1 | h1
      · exact ih _ _ h1
      · simp only [List.mem_singleton] at h1
        omega

theorem decDigits_length : ∀ (f n k : Nat), 0 < k → n < 10 ^ k → (decDigits f n).length ≤ k := by
  intro f
  induction f with
  | zero => intro n k _ _; simp [decDigits]
  | succ f ih =>
    intro n k hk hn
    unfold decDigits
    by_cases h10 : n < 10
    · rw [if_pos h10]; simpa using hk
    · rw [if_neg h10]
      have hk2 : 2 ≤ k := by
        by_contra hc
        have : k = 1 := by omega
        subst this
        simp at hn
        omega
      have hdiv : n / 10 < 10 ^ (k - 1) := by
        apply Nat.div_lt_of_lt_mul
        have : 10 ^ k = 10 * 10 ^ (k - 1) := by
          rw [← Nat.pow_succ']
          congr 1; omega
        omega
      have := ih (n / 10) (k - 1) (by omega) hdiv
      simp only [List.length_append, List.length_singleton]
      omega

theorem decDigits_ne_nil (f n : Nat) : decDigits (f + 1) n ≠ [] := by
  unfold decDigits
  split
  · simp
  · simp

theorem decValue_append (xs : List Nat) (d : Nat) :
    decValue (xs ++ [d]) = 10 * decValue xs + (d - 48) := by
  simp [decValue, List.foldl_append]

theorem decValue_decDigits : ∀ (f n : Nat), n < f → decValue (decDigits f n) = n := by
  intro f
  induction f with
  | zero => intro n h; omega
  | succ f ih =>
    intro n h
    unfold decDigits
    by_cases h10 : n < 10
    · rw [if_pos h10]
      simp [decValue]
    · rw [if_neg h10, decValue_append, ih (n / 10) (by omega)]
      omega

theorem decDigits_head : ∀ (f n : Nat), n < f → (decDigits f n).head? = some 48 →
    decDigits f n = [48] := by
  intro f
  induction f with
  | zero => intro n h; omega
  | succ f ih =>
    intro n h hh
    unfold decDigits at hh ⊢
    by_cases h10 : n < 10
    · rw [if_pos h10] at hh ⊢
      simp only [List.head?_cons, Option.some.injEq] at hh
      rw [hh]
    · exfalso
      rw [if_neg h10] at hh
      have hlt : n / 10 < f := by omega
      cases f with
      | zero => omega
      | succ g =>
        have hne := decDigits_ne_nil g (n / 10)
        rw [List.head?_append_of_ne_nil _ hne] at hh
        have h48 := ih (n / 10) hlt hh
        have hv := decValue_decDigits (g + 1) (n / 10) hlt
        rw [h48] at hv
        simp [decValue] at hv
        omega

/-- The text for an unsigned value is its canonical decimal text. -/
theorem fmtUnsigned_canonical (n : Nat) : IsCanonicalDecimal (fmtUnsigned n) (n : Int) := by
  refine ⟨fmtUnsigned n, ?_, decDigits_ne_nil n n, decDigits_range (n + 1) n,
    ?_, decDigits_head (n + 1) n (by omega)⟩
  · rw [if_neg (by omega)]
  · rw [Int.natAbs_ofNat]
    exact decValue_decDigits (n + 1) n (by omega)

/-- The text for a signed value is its canonical decimal text. -/
theorem fmtSigned_canonical (x : Int) : IsCanonicalDecimal (fmtSigned x) x := by
  refine ⟨fmtUnsigned x.natAbs, ?_, decDigits_ne_nil _ _, decDigits_range _ _,
    decValue_decDigits _ _ (by omega), decDigits_head _ _ (by omega)⟩
  unfold fmtSigned
  rfl

theorem fmtUnsigned_length (n k : Nat) (hk : 0 < k) (hn : n < 10 ^ k) :
    (fmtUnsigned n).length ≤ k :=
  decDigits_length (n + 1) n k hk hn

theorem fmtUnsigned_zero_free (n : Nat) : 0 ∉ fmtUnsigned n := by
  intro h
  have := decDigits_range (n + 1) n 0 h
  omega

theorem fmtSigned_zero_free (x : Int) : 0 ∉ fmtSigned x := by
  unfold fmtSigned
  split
  · intro h
    rcases List.mem_cons.1 h with h1 | h1
    · omega
    · exact fmtUnsigned_zero_free _ h1
  · exact fmtUnsigned_zero_free _

theorem fmtSigned_length (x : Int) (k : Nat) (hk : 0 < k) (hn : x.natAbs < 10 ^ k) :
    (fmtSigned x).length ≤ k + 1 := by
  have := fmtUnsigned_length x.natAbs k hk hn
  unfold fmtSigned
  split
  · simp only [List.length_cons]; omega
  · omega

/-- The buffer `snprintf` leaves: the text cut to `size - 1` bytes, the
terminator, and the rest of the array. -/
theorem snprintf_shape (size : Nat) (text : List Nat) (stack : Nat → Nat) :
    ∃ rest, snprintf size text stack = text.take (size - 1) ++ 0 :: rest := by
  unfold snprintf
  refine ⟨(List.range (size - (text.take (size - 1) ++ [0]).length)).map
      (fun i => stack ((text.take (size - 1) ++ [0]).length + i)), ?_⟩
  rw [List.append_assoc]
  rfl

/-- What `append(const char *)` does with a C string. -/
theorem append_cstr_spec (w : Nat) (junk : Nat → Nat) (a : AString) (t rest : List Nat)
    (hw : 5 ≤ w) (hwf : a.WF w) (ht : 0 ∉ t) (hov : a.mAllocSize + t.length + 31 < 2 ^ w) :
    ∃ r, a.append_cstr w junk (t ++ 0 :: rest) = some r ∧ r.content = a.content ++ t ∧
      r.size = a.size + t.length ∧ r.byteAt r.size = some 0 := by
  obtain ⟨buf, he, hc, hz, -⟩ :=
    append_spec w junk a (t ++ 0 :: rest) t.length hw hwf (by simp) hov
  rw [List.take_left' rfl] at hc
  refine ⟨⟨Ptr.heap buf, a.mSize + t.length, buf.length⟩, ?_, ?_, rfl, hz⟩
  · simp only [AString.append_cstr, strlen_spec rest t ht, Option.bind_eq_bind,
      Option.some_bind, he]
  · rw [content_heap]; exact hc

/-- Formatting into an array that holds the whole text and appending it appends
the whole text. -/
theorem append_formatted_spec (w : Nat) (junk stack : Nat → Nat) (a : AString) (size : Nat)
    (text : List Nat) (hw : 5 ≤ w) (hwf : a.WF w) (ht : 0 ∉ text) (hfit : text.length < size)
    (hov : a.mAllocSize + size + 31 < 2 ^ w) :
    ∃ r, a.append_cstr w junk (snprintf size text stack) = some r ∧
      r.content = a.content ++ text ∧ r.size = a.size + text.length ∧
      r.byteAt r.size = some 0 := by
  obtain ⟨rest, hs⟩ := snprintf_shape size text stack
  rw [List.take_of_length_le (by omega)] at hs
  rw [hs]
  exact append_cstr_spec w junk a text rest hw hwf ht (by omega)

/-- C15: for every 32-bit or 64-bit, signed or unsigned integer `x` and every
buffer with content `s`, the numeric `append(x)` succeeds and leaves content
`s ++ d` where `d` is the canonical decimal text of `x` (a leading `-` for
negative values, no leading zeros); `d` is shorter than the stack array it is
formatted into (16 bytes for `int` and `unsigned`, 32 bytes for the `long` and
`long long` overloads), so it is never truncated. -/
theorem append_integer (w : Nat) (junk stack : Nat → Nat) (a : AString) (hw : 5 ≤ w)
    (hwf : a.WF w) (hov : a.mAllocSize + 63 < 2 ^ w) :
    (∀ x : Int, -(2 ^ 31 : Int) ≤ x → x < 2 ^ 31 →
      ∃ r, a.append_int w junk stack x = some r ∧ r.content = a.content ++ fmtSigned x ∧
        IsCanonicalDecimal (fmtSigned x) x ∧ (fmtSigned x).length < 16) ∧
    (∀ x : Nat, x < 2 ^ 32 →
      ∃ r, a.append_unsigned w junk stack x = some r ∧
        r.content = a.content ++ fmtUnsigned x ∧
        IsCanonicalDecimal (fmtUnsigned x) (x : Int) ∧ (fmtUnsigned x).length < 16) ∧
    (∀ x : Int, -(2 ^ 63 : Int) ≤ x → x < 2 ^ 63 →
      (∃ r, a.append_long w junk stack x = some r ∧ r.content = a.content ++ fmtSigned x) ∧
      (∃ r, a.append_longlong w junk stack x = some r ∧
        r.content = a.content ++ fmtSigned x) ∧
      IsCanonicalDecimal (fmtSigned x) x ∧ (fmtSigned x).length < 32) ∧
    (∀ x : Nat, x < 2 ^ 64 →
      (∃ r, a.append_ulong w junk stack x = some r ∧ r.content = a.content ++ fmtUnsigned x) ∧
      (∃ r, a.append_ulonglong w junk stack x = some r ∧
        r.content = a.content ++ fmtUnsigned x) ∧
      IsCanonicalDecimal (fmtUnsigned x) (x : Int) ∧ (fmtUnsigned x).length < 32) := by
  refine ⟨?_, ?_, ?_, ?_⟩
  · intro x h1 h2
    have hl : (fmtSigned x).length ≤ 10 + 1 :=
      fmtSigned_length x 10 (by decide) (by omega)
    obtain ⟨r, he, hc, -⟩ := append_formatted_spec w junk stack a 16 (fmtSigned x) hw hwf
      (fmtSigned_zero_free x) (by omega) (by omega)
    exact ⟨r, he, hc, fmtSigned_canonical x, by omega⟩
  · intro x h1
    have hl : (fmtUnsigned x).length ≤ 10 :=
      fmtUnsigned_length x 10 (by decide) (by omega)
    obtain ⟨r, he, hc, -⟩ := append_formatted_spec w junk stack a 16 (fmtUnsigned x) hw hwf
      (fmtUnsigned_zero_free x) (by omega) (by omega)
    exact ⟨r, he, hc, fmtUnsigned_canonical x, by omega⟩
  · intro x h1 h2
    have hl : (fmtSigned x).length ≤ 19 + 1 :=
      fmtSigned_length x 19 (by decide) (by omega)
    obtain ⟨r, he, hc, -⟩ := append_formatted_spec w junk stack a 32 (fmtSigned x) hw hwf
      (fmtSigned_zero_free x) (by omega) (by omega)
    exact ⟨⟨r, he, hc⟩, ⟨r, he, hc⟩, fmtSigned_canonical x, by omega⟩
  · intro x h1
    have hl : (fmtUnsigned x).length ≤ 20 :=
      fmtUnsigned_length x 20 (by decide) (by omega)
    obtain ⟨r, he, hc, -⟩ := append_formatted_spec w junk stack a 32 (fmtUnsigned x) hw hwf
      (fmtUnsigned_zero_free x) (by omega) (by omega)
    exact ⟨⟨r, he, hc⟩, ⟨r, he, hc⟩, fmtUnsigned_canonical x, by omega⟩

/-- Witness for C15: the numeric appends on the empty buffer; appending the
`int` -42 yields "-42". -/
theorem append_integer_witness :
    (5 ≤ 64 ∧ AString.mk0.WF 64 ∧ AString.mk0.mAllocSize + 63 < 2 ^ 64) ∧
    (AString.mk0.append_int 64 (fun _ => 0) (fun _ => 7) (-42)).map AString.content
      = some [45, 52, 50] ∧
    ((∀ x : Int, -(2 ^ 31 : Int) ≤ x → x < 2 ^ 31 →
      ∃ r, AString.mk0.append_int 64 (fun _ => 0) (fun _ => 7) x = some r ∧
        r.content = AString.mk0.content ++ fmtSigned x ∧
        IsCanonicalDecimal (fmtSigned x) x ∧ (fmtSigned x).length < 16) ∧
    (∀ x : Nat, x < 2 ^ 32 →
      ∃ r, AString.mk0.append_unsigned 64 (fun _ => 0) (fun _ => 7) x = some r ∧
        r.content = AString.mk0.content ++ fmtUnsigned x ∧
        IsCanonicalDecimal (fmtUnsigned x) (x : Int) ∧ (fmtUnsigned x).length < 16) ∧
    (∀ x : Int, -(2 ^ 63 : Int) ≤ x → x < 2 ^ 63 →
      (∃ r, AString.mk0.append_long 64 (fun _ => 0) (fun _ => 7) x = some r ∧
        r.content = AString.mk0.content ++ fmtSigned x) ∧
      (∃ r, AString.mk0.append_longlong 64 (fun _ => 0) (fun _ => 7) x = some r ∧
        r.content = AString.mk0.content ++ fmtSigned x) ∧
      IsCanonicalDecimal (fmtSigned x) x ∧ (fmtSigned x).length < 32) ∧
    (∀ x : Nat, x < 2 ^ 64 →
      (∃ r, AString.mk0.append_ulong 64 (fun _ => 0) (fun _ => 7) x = some r ∧
        r.content = AString.mk0.content ++ fmtUnsigned x) ∧
      (∃ r, AString.mk0.append_ulonglong 64 (fun _ => 0) (fun _ => 7) x = some r ∧
        r.content = AString.mk0.content ++ fmtUnsigned x) ∧
      IsCanonicalDecimal (fmtUnsigned x) (x : Int) ∧ (fmtUnsigned x).length < 32)) :=
  ⟨by decide, by decide,
    append_integer 64 (fun _ => 0) (fun _ => 7) AString.mk0 (by decide) (by decide)
      (by decide)⟩

/-- What `append(double)` (and `append(float)`, which has the same body) does
for an argument whose value is the non-negative integer `k`: it appends the
`%f` text cut to the 15 bytes that fit the 16-byte array. -/
theorem append_double_spec (w : Nat) (junk stack : Nat → Nat) (a : AString) (k : Nat)
    (hw : 5 ≤ w) (hwf : a.WF w) (hov : a.mAllocSize + 46 < 2 ^ w) :
    ∃ r, a.append_double w junk stack k = some r ∧ a.append_float w junk stack k = some r ∧
      r.content = a.content ++ (fmtFixedOfNat k).take 15 := by
  obtain ⟨rest, hs⟩ := snprintf_shape 16 (fmtFixedOfNat k) stack
  have hz : 0 ∉ (fmtFixedOfNat k).take 15 := by
    intro h
    have hm := List.mem_of_mem_take h
    unfold fmtFixedOfNat at hm
    rcases List.mem_append.1 hm with h1 | h1
    · exact fmtUnsigned_zero_free k h1
    · simp at h1
  have hl : ((fmtFixedOfNat k).take 15).length ≤ 15 := by
    rw [List.length_take]; omega
  obtain ⟨r, he, hc, -⟩ :=
    append_cstr_spec w junk a ((fmtFixedOfNat k).take 15) rest hw hwf hz (by omega)
  refine ⟨r, ?_, ?_, hc⟩
  · unfold AString.append_double
    rw [hs]; exact he
  · unfold AString.append_float
    rw [hs]; exact he

/-- The code at the failing input of C16: appending the double (or float)
100000000.0 to the empty buffer yields the 15 bytes "100000000.00000", with
five fractional digits, while the complete `%f` text "100000000.000000" has
16 bytes. -/
theorem append_double_truncates :
    (AString.mk0.append_double 64 (fun _ => 0) (fun _ => 0) 100000000).map AString.content
      = some [49, 48, 48, 48, 48, 48, 48, 48, 48, 46, 48, 48, 48, 48, 48] ∧
    (AString.mk0.append_float 64 (fun _ => 0) (fun _ => 0) 100000000).map AString.content
      = some [49, 48, 48, 48, 48, 48, 48, 48, 48, 46, 48, 48, 48, 48, 48] ∧
    fmtUnsigned 100000000 ++ [46, 48, 48, 48, 48, 48, 48]
      = [49, 48, 48, 48, 48, 48, 48, 48, 48, 46, 48, 48, 48, 48, 48, 48] ∧
    (AString.mk0.append_double 64 (fun _ => 0) (fun _ => 0) 100000000).map AString.content
      ≠ some (AString.mk0.content ++ (fmtUnsigned 100000000 ++ [46, 48, 48, 48, 48, 48, 48])) := by
  decide

end android
